import Mathlib

/-! # Verification of the omniretrieve hybrid-retrieval core

Shallow embedding of the hybrid retrieval orchestrator (`hybrid/hybrid.go`),
its score-fusion merger and deduplicator, the graph retriever (`graph`
package, `Retriever.Retrieve` / `computePathScore`) and the in-memory
knowledge-graph BFS traversal (`memory/graph.go`).

Modelling conventions: Go `float64` scores and weights become `ℚ`, Go `int`
becomes `Int`, Go maps become association lists with the map semantics
(insert-or-overwrite, lookup of the unique binding) made explicit, and a
fallible Go call `(T, error)` becomes either `Except Err T` (for the abstract
`Retriever` collaborators, whose contract is result xor error) or an explicit
`Option T × Option Err` pair where the Go code itself returns both values.
-/

namespace OmniRetrieve

/-- Error values carried by Go `error` returns; their identity is opaque to
the orchestrator, so a `String` stands in for them. -/
abbrev Err := String

/-- Mode constants from `retrieve/retrieve.go` (`ModeVector`, `ModeGraph`,
`ModeHybrid`); Go `Mode` is a string type. -/
def ModeVector : String := "vector"

/-- Graph mode constant from `retrieve/retrieve.go`. -/
def ModeGraph : String := "graph"

/-- Hybrid mode constant from `retrieve/retrieve.go`. -/
def ModeHybrid : String := "hybrid"

/-- `retrieve.EntityHint`. -/
structure EntityHint where
  id : String
  type : String
  name : String
  confidence : ℚ
deriving DecidableEq

/-- `retrieve.Query`.  The `metadata` field is `map[string]any` in Go; its
contents are never inspected by the core, so string pairs stand in for it. -/
structure Query where
  text : String
  embedding : List ℚ
  entities : List EntityHint
  filters : List (String × String)
  maxDepth : Int
  topK : Int
  modes : List String
  minScore : ℚ
  metadata : List (String × String)
deriving DecidableEq

/-- `retrieve.Provenance`. -/
structure Provenance where
  mode : String
  backend : String
  graphPath : List String
  similarityScore : ℚ
  rerankerScore : ℚ
deriving DecidableEq

/-- `retrieve.ContextItem`. -/
structure ContextItem where
  id : String
  content : String
  source : String
  score : ℚ
  metadata : List (String × String)
  provenance : Provenance
deriving DecidableEq

/-- `retrieve.ResultMetadata`.  `latencyMS` is wall-clock time, which the
embedding does not model; it is always `0` here. -/
structure ResultMetadata where
  totalCandidates : Int
  latencyMS : Int
  modesUsed : List String
  cacheHit : Bool
deriving DecidableEq

/-- `retrieve.Result`. -/
structure Result where
  items : List ContextItem
  query : Query
  metadata : ResultMetadata
deriving DecidableEq

/-- `retrieve.Retriever`: `Retrieve(ctx, q) → (*Result, error)`, with the
interface contract of returning exactly one of the two. -/
abbrev Retriever := Query → Except Err Result

/-- `hybrid.Weights`. -/
structure Weights where
  vector : ℚ
  graph : ℚ
deriving DecidableEq

/-! ## Association lists standing in for Go maps -/

/-- Go map read `m[k]`: the value of the (unique) binding of `k`, if any.
On lists with duplicate keys this returns the first binding. -/
def assocFind (k : String) : List (String × α) → Option α
  | [] => none
  | (k', v) :: rest => if k' = k then some v else assocFind k rest

/-- Go map write through a looked-up pointer (`existing.Score += ...`):
apply `f` to the binding of `k`.  Only the first binding is touched, which
on unique-key lists is exactly the map behaviour. -/
def assocUpdate (k : String) (f : α → α) : List (String × α) → List (String × α)
  | [] => []
  | (k', v) :: rest =>
    if k' = k then (k', f v) :: rest else (k', v) :: assocUpdate k f rest

/-- Go map assignment `m[k] = v`: overwrite the binding of `k`, or append a
new binding. -/
def assocSet (k : String) (v : α) : List (String × α) → List (String × α)
  | [] => [(k, v)]
  | (k', v') :: rest =>
    if k' = k then (k, v) :: rest else (k', v') :: assocSet k v rest

theorem assocFind_eq_none {k : String} {m : List (String × α)} :
    assocFind k m = none ↔ ∀ p ∈ m, p.1 ≠ k := by
  induction m with
  | nil => simp [assocFind]
  | cons p rest ih =>
    obtain ⟨k', v⟩ := p
    by_cases h : k' = k <;> simp [assocFind, h, ih]

theorem assocFind_some_mem {k : String} {m : List (String × α)} {v : α}
    (h : assocFind k m = some v) : (k, v) ∈ m := by
  induction m with
  | nil => simp [assocFind] at h
  | cons p rest ih =>
    obtain ⟨k', v'⟩ := p
    by_cases hk : k' = k
    · subst hk
      simp [assocFind] at h
      simp [h]
    · simp [assocFind, hk] at h
      simp [ih h]

theorem assocFind_of_mem_nodup {k : String} {m : List (String × α)} {v : α}
    (hnd : (m.map (·.1)).Nodup) (h : (k, v) ∈ m) : assocFind k m = some v := by
  induction m with
  | nil => simp at h
  | cons p rest ih =>
    obtain ⟨k', v'⟩ := p
    simp only [List.map_cons, List.nodup_cons] at hnd
    rcases List.mem_cons.mp h with h | h
    · cases h
      simp [assocFind]
    · have hk : k' ≠ k := by
        rintro rfl
        exact hnd.1 (List.mem_map.mpr ⟨(k', v), h, rfl⟩)
      simp [assocFind, hk, ih hnd.2 h]

theorem assocFind_assocSet_self (k : String) (v : α) (m : List (String × α)) :
    assocFind k (assocSet k v m) = some v := by
  induction m with
  | nil => simp [assocSet, assocFind]
  | cons p rest ih =>
    obtain ⟨k', v'⟩ := p
    by_cases h : k' = k <;> simp [assocSet, assocFind, h, ih]

theorem assocFind_assocSet_ne {x k : String} (hxk : x ≠ k) (v : α)
    (m : List (String × α)) : assocFind x (assocSet k v m) = assocFind x m := by
  have hkx : ¬ k = x := fun h => hxk h.symm
  induction m with
  | nil => simp [assocSet, assocFind, hkx]
  | cons p rest ih =>
    obtain ⟨k', v'⟩ := p
    by_cases h : k' = k
    · subst h
      simp [assocSet, assocFind, hkx]
    · by_cases h2 : k' = x <;> simp [assocSet, assocFind, h, h2, hxk, hkx, ih]

theorem assocSet_of_find_none {k : String} {m : List (String × α)} (v : α)
    (h : assocFind k m = none) : assocSet k v m = m ++ [(k, v)] := by
  induction m with
  | nil => simp [assocSet]
  | cons p rest ih =>
    obtain ⟨k', v'⟩ := p
    by_cases hk : k' = k
    · simp [assocFind, hk] at h
    · simp [assocFind, hk] at h
      simp [assocSet, hk, ih h]

theorem assocFind_assocUpdate_self (k : String) (f : α → α)
    (m : List (String × α)) :
    assocFind k (assocUpdate k f m) = (assocFind k m).map f := by
  induction m with
  | nil => simp [assocUpdate, assocFind]
  | cons p rest ih =>
    obtain ⟨k', v'⟩ := p
    by_cases h : k' = k <;> simp [assocUpdate, assocFind, h, ih]

theorem assocFind_assocUpdate_ne {x k : String} (hxk : x ≠ k) (f : α → α)
    (m : List (String × α)) :
    assocFind x (assocUpdate k f m) = assocFind x m := by
  have hkx : ¬ k = x := fun h => hxk h.symm
  induction m with
  | nil => simp [assocUpdate, assocFind]
  | cons p rest ih =>
    obtain ⟨k', v'⟩ := p
    by_cases h : k' = k
    · subst h
      simp [assocUpdate, assocFind, hkx]
    · by_cases h2 : k' = x <;> simp [assocUpdate, assocFind, h, h2, hxk, hkx, ih]

theorem keys_assocUpdate (k : String) (f : α → α) (m : List (String × α)) :
    (assocUpdate k f m).map (·.1) = m.map (·.1) := by
  induction m with
  | nil => simp [assocUpdate]
  | cons p rest ih =>
    obtain ⟨k', v'⟩ := p
    by_cases h : k' = k <;> simp [assocUpdate, h, ih]

theorem mem_assocUpdate {p : String × α} {k : String} {f : α → α}
    {m : List (String × α)} (h : p ∈ assocUpdate k f m) :
    p ∈ m ∨ ∃ v, (k, v) ∈ m ∧ p = (k, f v) := by
  induction m with
  | nil => simp [assocUpdate] at h
  | cons q rest ih =>
    obtain ⟨k', v'⟩ := q
    by_cases hk : k' = k
    · subst hk
      simp only [assocUpdate, if_true, eq_self_iff_true, List.mem_cons] at h
      rcases h with h1 | h1
      · exact Or.inr ⟨v', List.mem_cons_self _ _, h1⟩
      · exact Or.inl (List.mem_cons_of_mem _ h1)
    · simp only [assocUpdate, if_neg hk, List.mem_cons] at h
      rcases h with h1 | h1
      · exact Or.inl (List.mem_cons.mpr (Or.inl h1))
      · rcases ih h1 with h2 | ⟨v, hv, hp⟩
        · exact Or.inl (List.mem_cons_of_mem _ h2)
        · exact Or.inr ⟨v, List.mem_cons_of_mem _ hv, hp⟩

theorem mem_assocSet {p : String × α} {k : String} {v : α}
    {m : List (String × α)} (h : p ∈ assocSet k v m) :
    p ∈ m ∨ p = (k, v) := by
  induction m with
  | nil => simpa [assocSet] using h
  | cons q rest ih =>
    obtain ⟨k', v'⟩ := q
    by_cases hk : k' = k
    · simp only [assocSet, if_pos hk, List.mem_cons] at h
      rcases h with h1 | h1
      · exact Or.inr h1
      · exact Or.inl (List.mem_cons_of_mem _ h1)
    · simp only [assocSet, if_neg hk, List.mem_cons] at h
      rcases h with h1 | h1
      · exact Or.inl (List.mem_cons.mpr (Or.inl h1))
      · rcases ih h1 with h2 | h2
        · exact Or.inl (List.mem_cons_of_mem _ h2)
        · exact Or.inr h2

/-! ## Score fusion: `mergeResults` (hybrid/hybrid.go lines 275-315) -/

/-- Body of the vector loop in `mergeResults` (hybrid.go lines 280-289):
weight the score by `Weights.Vector`; add onto an existing entry, or insert
a copy with the weighted score. -/
def mergeVectorStep (w : Weights) (merged : List (String × ContextItem))
    (item : ContextItem) : List (String × ContextItem) :=
  let weightedScore := item.score * w.vector
  match assocFind item.id merged with
  | some _ =>
      assocUpdate item.id
        (fun existing => { existing with score := existing.score + weightedScore }) merged
  | none => assocSet item.id { item with score := weightedScore } merged

/-- Body of the graph loop in `mergeResults` (hybrid.go lines 292-305):
weight the score by `Weights.Graph`; on collision add the weighted score and
prefer a non-empty graph path, otherwise insert a copy. -/
def mergeGraphStep (w : Weights) (merged : List (String × ContextItem))
    (item : ContextItem) : List (String × ContextItem) :=
  let weightedScore := item.score * w.graph
  match assocFind item.id merged with
  | some _ =>
      assocUpdate item.id
        (fun existing =>
          { existing with
            score := existing.score + weightedScore,
            provenance :=
              if item.provenance.graphPath ≠ [] then
                { existing.provenance with graphPath := item.provenance.graphPath }
              else existing.provenance }) merged
  | none => assocSet item.id { item with score := weightedScore } merged

/-- `Retriever.mergeResults` (hybrid.go lines 275-315): fold both item lists
into a map keyed by identifier, then emit the map entries with provenance
mode forced to hybrid.  The Go map's iteration order is unspecified; the
association list fixes one order (insertion order). -/
def mergeResults (w : Weights) (vectorItems graphItems : List ContextItem) :
    List ContextItem :=
  let merged := graphItems.foldl (mergeGraphStep w)
    (vectorItems.foldl (mergeVectorStep w) [])
  merged.map fun p =>
    { p.2 with provenance := { p.2.provenance with mode := ModeHybrid } }

/-- The value a vector item contributes when first inserted. -/
def vectorEntry (w : Weights) (item : ContextItem) : ContextItem :=
  { item with score := item.score * w.vector }

/-- The value a graph item contributes when first inserted. -/
def graphEntry (w : Weights) (item : ContextItem) : ContextItem :=
  { item with score := item.score * w.graph }

/-- The value produced when a graph item collides with an existing entry. -/
def graphCombine (w : Weights) (existing item : ContextItem) : ContextItem :=
  { existing with
    score := existing.score + item.score * w.graph,
    provenance :=
      if item.provenance.graphPath ≠ [] then
        { existing.provenance with graphPath := item.provenance.graphPath }
      else existing.provenance }

theorem vector_fold_eq_map (w : Weights) (items : List ContextItem)
    (m : List (String × ContextItem)) (hnd : (items.map (·.id)).Nodup)
    (habs : ∀ it ∈ items, assocFind it.id m = none) :
    items.foldl (mergeVectorStep w) m =
      m ++ items.map (fun it => (it.id, vectorEntry w it)) := by
  induction items generalizing m with
  | nil => simp
  | cons a rest ih =>
    simp only [List.map_cons, List.nodup_cons] at hnd
    have ha : assocFind a.id m = none := habs a (List.mem_cons_self _ _)
    have hstep : mergeVectorStep w m a = m ++ [(a.id, vectorEntry w a)] := by
      simp [mergeVectorStep, ha, assocSet_of_find_none _ ha, vectorEntry]
    have habs' : ∀ it ∈ rest, assocFind it.id (m ++ [(a.id, vectorEntry w a)]) = none := by
      intro it hit
      have h1 : assocFind it.id m = none := habs it (List.mem_cons_of_mem _ hit)
      have h2 : it.id ≠ a.id := by
        intro hEq
        exact hnd.1 (List.mem_map.mpr ⟨it, hit, hEq⟩)
      rw [assocFind_eq_none] at h1 ⊢
      intro p hp
      rcases List.mem_append.mp hp with hp | hp
      · exact h1 p hp
      · simp only [List.mem_singleton] at hp
        rw [hp]
        exact fun hcontr => h2 hcontr.symm
    rw [List.foldl_cons, hstep, ih _ hnd.2 habs']
    simp

theorem assocFind_map_entry (x : String) (items : List ContextItem)
    (f : ContextItem → ContextItem) :
    assocFind x (items.map fun it => (it.id, f it)) =
      (items.find? fun it => decide (it.id = x)).map f := by
  induction items with
  | nil => simp [assocFind]
  | cons a rest ih =>
    by_cases h : a.id = x <;> simp [assocFind, List.find?_cons, h, ih]

theorem graph_fold_find (w : Weights) (items : List ContextItem)
    (m : List (String × ContextItem)) (x : String)
    (hnd : (items.map (·.id)).Nodup) :
    assocFind x (items.foldl (mergeGraphStep w) m) =
      match items.find? (fun it => decide (it.id = x)), assocFind x m with
      | some g, some v => some (graphCombine w v g)
      | none, some v => some v
      | some g, none => some (graphEntry w g)
      | none, none => none := by
  induction items generalizing m with
  | nil => cases hm : assocFind x m <;> simp [hm]
  | cons g rest ih =>
    simp only [List.map_cons, List.nodup_cons] at hnd
    rw [List.foldl_cons, ih _ hnd.2]
    by_cases hx : g.id = x
    · subst hx
      have hrest : rest.find? (fun it => decide (it.id = g.id)) = none := by
        rw [List.find?_eq_none]
        intro it hit
        simp only [decide_eq_true_eq]
        intro hEq
        exact hnd.1 (List.mem_map.mpr ⟨it, hit, hEq⟩)
      rw [hrest]
      cases hm : assocFind g.id m with
      | some v =>
        have : mergeGraphStep w m g =
            assocUpdate g.id (fun existing => graphCombine w existing g) m := by
          simp [mergeGraphStep, hm, graphCombine]
        rw [this, assocFind_assocUpdate_self, hm]
        simp [List.find?_cons]
      | none =>
        have : mergeGraphStep w m g = assocSet g.id (graphEntry w g) m := by
          simp [mergeGraphStep, hm, graphEntry]
        rw [this, assocFind_assocSet_self]
        simp [List.find?_cons]
    · have hfind : List.find? (fun it => decide (it.id = x)) (g :: rest) =
          List.find? (fun it => decide (it.id = x)) rest := by
        simp [List.find?_cons, hx]
      rw [hfind]
      have hpres : assocFind x (mergeGraphStep w m g) = assocFind x m := by
        have hxg : x ≠ g.id := fun h => hx h.symm
        cases hm : assocFind g.id m with
        | some v => simp [mergeGraphStep, hm, assocFind_assocUpdate_ne hxg]
        | none => simp [mergeGraphStep, hm, assocFind_assocSet_ne hxg]
      rw [hpres]

theorem foldl_inv {β M : Type} (Inv : M → Prop) (step : M → β → M)
    (l : List β) (m : M) (hm : Inv m)
    (hstep : ∀ m' a, a ∈ l → Inv m' → Inv (step m' a)) :
    Inv (List.foldl step m l) := by
  induction l generalizing m with
  | nil => exact hm
  | cons a rest ih =>
    exact ih _ (hstep m a (List.mem_cons_self _ _) hm)
      (fun m' b hb => hstep m' b (List.mem_cons_of_mem _ hb))

theorem nodupkeys_mergeGraphStep (w : Weights) (m : List (String × ContextItem))
    (item : ContextItem) (h : (m.map (·.1)).Nodup) :
    ((mergeGraphStep w m item).map (·.1)).Nodup := by
  cases hm : assocFind item.id m with
  | some v => simpa [mergeGraphStep, hm, keys_assocUpdate] using h
  | none =>
    have hnotin : item.id ∉ m.map (·.1) := by
      rw [assocFind_eq_none] at hm
      intro hc
      rcases List.mem_map.mp hc with ⟨p, hp, hpk⟩
      exact hm p hp hpk
    simp [mergeGraphStep, hm, assocSet_of_find_none _ hm, List.nodup_append, h, hnotin]

theorem merged_entry_id (w : Weights) (vectorItems graphItems : List ContextItem) :
    ∀ p ∈ graphItems.foldl (mergeGraphStep w)
        (vectorItems.foldl (mergeVectorStep w) []), p.2.id = p.1 := by
  have hvstep : ∀ (m' : List (String × ContextItem)) (a : ContextItem),
      a ∈ vectorItems → (∀ p ∈ m', p.2.id = p.1) →
      ∀ p ∈ mergeVectorStep w m' a, p.2.id = p.1 := by
    intro m' a _ hInv p hp
    dsimp only [mergeVectorStep] at hp
    cases hm : assocFind a.id m' with
    | some v =>
      rw [hm] at hp
      rcases mem_assocUpdate hp with h1 | ⟨v', hv', h1⟩
      · exact hInv p h1
      · rw [h1]
        exact hInv (a.id, v') hv'
    | none =>
      rw [hm] at hp
      rcases mem_assocSet hp with h1 | h1
      · exact hInv p h1
      · rw [h1]
  have hv : ∀ p ∈ vectorItems.foldl (mergeVectorStep w) ([] : List (String × ContextItem)),
      p.2.id = p.1 :=
    foldl_inv (fun m => ∀ p ∈ m, p.2.id = p.1) (mergeVectorStep w)
      vectorItems [] (by simp) hvstep
  have hgstep : ∀ (m' : List (String × ContextItem)) (a : ContextItem),
      a ∈ graphItems → (∀ p ∈ m', p.2.id = p.1) →
      ∀ p ∈ mergeGraphStep w m' a, p.2.id = p.1 := by
    intro m' a _ hInv p hp
    dsimp only [mergeGraphStep] at hp
    cases hm : assocFind a.id m' with
    | some v =>
      rw [hm] at hp
      rcases mem_assocUpdate hp with h1 | ⟨v', hv', h1⟩
      · exact hInv p h1
      · rw [h1]
        exact hInv (a.id, v') hv'
    | none =>
      rw [hm] at hp
      rcases mem_assocSet hp with h1 | h1
      · exact hInv p h1
      · rw [h1]
  exact foldl_inv (fun m => ∀ p ∈ m, p.2.id = p.1) (mergeGraphStep w)
    graphItems _ hv hgstep

theorem merged_nodup_keys (w : Weights) (vectorItems graphItems : List ContextItem)
    (hv : (vectorItems.map (·.id)).Nodup) :
    ((graphItems.foldl (mergeGraphStep w)
        (vectorItems.foldl (mergeVectorStep w) [])).map (·.1)).Nodup := by
  have hbase : ((vectorItems.foldl (mergeVectorStep w) []).map (·.1)).Nodup := by
    rw [vector_fold_eq_map w vectorItems [] hv (by simp [assocFind])]
    simpa [Function.comp] using hv
  exact foldl_inv (fun m => (m.map (·.1)).Nodup) (mergeGraphStep w) graphItems _ hbase
    (fun m' a _ hInv => nodupkeys_mergeGraphStep w m' a hInv)

/-- C1: score fusion is additive on identifier collision.  When every
identifier occurs at most once per input list, any output item of
`mergeResults` with identifier `x` carries score
`sv*weights.Vector + sg*weights.Graph` where `sv`/`sg` are the scores of the
vector/graph items with identifier `x` (a missing occurrence contributes 0),
and an item with identifier `x` is present in the output whenever `x` occurs
in either input list. -/
theorem mergeResults_additive (w : Weights) (vectorItems graphItems : List ContextItem)
    (hv : (vectorItems.map (·.id)).Nodup) (hg : (graphItems.map (·.id)).Nodup)
    (x : String) :
    (∀ it ∈ mergeResults w vectorItems graphItems, it.id = x →
      it.score =
        ((vectorItems.find? fun a => decide (a.id = x)).map (·.score * w.vector)).getD 0 +
        ((graphItems.find? fun b => decide (b.id = x)).map (·.score * w.graph)).getD 0) ∧
    ((∃ a ∈ vectorItems, a.id = x) ∨ (∃ b ∈ graphItems, b.id = x) →
      ∃ it ∈ mergeResults w vectorItems graphItems, it.id = x) := by
  have hvfold : assocFind x (vectorItems.foldl (mergeVectorStep w) []) =
      (vectorItems.find? fun a => decide (a.id = x)).map (vectorEntry w) := by
    rw [vector_fold_eq_map w vectorItems [] hv (by simp [assocFind])]
    simpa using assocFind_map_entry x vectorItems (vectorEntry w)
  have hfind := graph_fold_find w graphItems (vectorItems.foldl (mergeVectorStep w) []) x hg
  rw [hvfold] at hfind
  constructor
  · intro it hit hid
    rcases List.mem_map.mp hit with ⟨p, hp, hpe⟩
    have hpid : p.2.id = p.1 := merged_entry_id w vectorItems graphItems p hp
    have hitid : it.id = p.2.id := by rw [← hpe]
    have hkey : p.1 = x := by rw [← hpid, ← hitid, hid]
    have hlook : assocFind x (graphItems.foldl (mergeGraphStep w)
        (vectorItems.foldl (mergeVectorStep w) [])) = some p.2 := by
      rw [← hkey]
      exact assocFind_of_mem_nodup (merged_nodup_keys w vectorItems graphItems hv)
        (by rw [← Prod.mk.eta (p := p)] at hp; exact hp)
    rw [hlook] at hfind
    have hscore : it.score = p.2.score := by rw [← hpe]
    rw [hscore]
    cases hgf : graphItems.find? (fun b => decide (b.id = x)) with
    | some g =>
      cases hvf : vectorItems.find? (fun a => decide (a.id = x)) with
      | some a =>
        rw [hgf, hvf] at hfind
        simp only [Option.map_some'] at hfind
        have h3 := Option.some.inj hfind.symm
        rw [← h3]
        simp [graphCombine, vectorEntry]
      | none =>
        rw [hgf, hvf] at hfind
        simp only [Option.map_none'] at hfind
        have h3 := Option.some.inj hfind.symm
        rw [← h3]
        simp [graphEntry]
    | none =>
      cases hvf : vectorItems.find? (fun a => decide (a.id = x)) with
      | some a =>
        rw [hgf, hvf] at hfind
        simp only [Option.map_some'] at hfind
        have h3 := Option.some.inj hfind.symm
        rw [← h3]
        simp [vectorEntry]
      | none =>
        rw [hgf, hvf] at hfind
        simp only [Option.map_none'] at hfind
        exact absurd hfind (by simp)
  · intro hex
    have hsome : ∃ v, assocFind x (graphItems.foldl (mergeGraphStep w)
        (vectorItems.foldl (mergeVectorStep w) [])) = some v := by
      rcases hex with ⟨a, ha, hax⟩ | ⟨b, hb, hbx⟩
      · have hsome : (vectorItems.find? fun c => decide (c.id = x)).isSome := by
          rw [List.find?_isSome]
          exact ⟨a, ha, by simp [hax]⟩
        rcases Option.isSome_iff_exists.mp hsome with ⟨a', ha'⟩
        rw [ha'] at hfind
        cases hgf : graphItems.find? (fun b => decide (b.id = x)) with
        | some g =>
          rw [hgf] at hfind
          exact ⟨_, hfind⟩
        | none =>
          rw [hgf] at hfind
          exact ⟨_, hfind⟩
      · have hsome : (graphItems.find? fun c => decide (c.id = x)).isSome := by
          rw [List.find?_isSome]
          exact ⟨b, hb, by simp [hbx]⟩
        rcases Option.isSome_iff_exists.mp hsome with ⟨g', hg'⟩
        rw [hg'] at hfind
        cases hvf : vectorItems.find? (fun a => decide (a.id = x)) with
        | some a =>
          rw [hvf] at hfind
          simp only [Option.map_some'] at hfind
          exact ⟨_, hfind⟩
        | none =>
          rw [hvf] at hfind
          simp only [Option.map_none'] at hfind
          exact ⟨_, hfind⟩
    rcases hsome with ⟨v, hvlook⟩
    have hmem := assocFind_some_mem hvlook
    have hvid : v.id = x :=
      merged_entry_id w vectorItems graphItems (x, v) hmem
    refine ⟨{ v with provenance := { v.provenance with mode := ModeHybrid } },
      List.mem_map.mpr ⟨(x, v), hmem, rfl⟩, hvid⟩

theorem merged_frame (w : Weights) (vectorItems graphItems : List ContextItem) :
    ∀ p ∈ graphItems.foldl (mergeGraphStep w)
        (vectorItems.foldl (mergeVectorStep w) []),
      ∃ src, (src ∈ vectorItems ∨ src ∈ graphItems) ∧ p.2.id = src.id ∧
        p.2.content = src.content ∧ p.2.source = src.source ∧
        p.2.metadata = src.metadata := by
  have hvstep : ∀ (m' : List (String × ContextItem)) (a : ContextItem),
      a ∈ vectorItems →
      (∀ p ∈ m', ∃ src, (src ∈ vectorItems ∨ src ∈ graphItems) ∧ p.2.id = src.id ∧
        p.2.content = src.content ∧ p.2.source = src.source ∧
        p.2.metadata = src.metadata) →
      ∀ p ∈ mergeVectorStep w m' a, ∃ src,
        (src ∈ vectorItems ∨ src ∈ graphItems) ∧ p.2.id = src.id ∧
        p.2.content = src.content ∧ p.2.source = src.source ∧
        p.2.metadata = src.metadata := by
    intro m' a ha hInv p hp
    dsimp only [mergeVectorStep] at hp
    cases hm : assocFind a.id m' with
    | some v =>
      rw [hm] at hp
      rcases mem_assocUpdate hp with h1 | ⟨v', hv', h1⟩
      · exact hInv p h1
      · rcases hInv (a.id, v') hv' with ⟨src, hsrc, hrest⟩
        exact ⟨src, hsrc, by simp [h1]; exact hrest⟩
    | none =>
      rw [hm] at hp
      rcases mem_assocSet hp with h1 | h1
      · exact hInv p h1
      · exact ⟨a, Or.inl ha, by simp [h1]⟩
  have hgstep : ∀ (m' : List (String × ContextItem)) (a : ContextItem),
      a ∈ graphItems →
      (∀ p ∈ m', ∃ src, (src ∈ vectorItems ∨ src ∈ graphItems) ∧ p.2.id = src.id ∧
        p.2.content = src.content ∧ p.2.source = src.source ∧
        p.2.metadata = src.metadata) →
      ∀ p ∈ mergeGraphStep w m' a, ∃ src,
        (src ∈ vectorItems ∨ src ∈ graphItems) ∧ p.2.id = src.id ∧
        p.2.content = src.content ∧ p.2.source = src.source ∧
        p.2.metadata = src.metadata := by
    intro m' a ha hInv p hp
    dsimp only [mergeGraphStep] at hp
    cases hm : assocFind a.id m' with
    | some v =>
      rw [hm] at hp
      rcases mem_assocUpdate hp with h1 | ⟨v', hv', h1⟩
      · exact hInv p h1
      · rcases hInv (a.id, v') hv' with ⟨src, hsrc, hrest⟩
        exact ⟨src, hsrc, by simp [h1]; exact hrest⟩
    | none =>
      rw [hm] at hp
      rcases mem_assocSet hp with h1 | h1
      · exact hInv p h1
      · exact ⟨a, Or.inr ha, by simp [h1]⟩
  have hbase : ∀ p ∈ vectorItems.foldl (mergeVectorStep w)
      ([] : List (String × ContextItem)), ∃ src,
      (src ∈ vectorItems ∨ src ∈ graphItems) ∧ p.2.id = src.id ∧
      p.2.content = src.content ∧ p.2.source = src.source ∧
      p.2.metadata = src.metadata :=
    foldl_inv (fun m => ∀ p ∈ m, ∃ src,
        (src ∈ vectorItems ∨ src ∈ graphItems) ∧ p.2.id = src.id ∧
        p.2.content = src.content ∧ p.2.source = src.source ∧
        p.2.metadata = src.metadata)
      (mergeVectorStep w) vectorItems [] (by simp) hvstep
  exact foldl_inv (fun m => ∀ p ∈ m, ∃ src,
      (src ∈ vectorItems ∨ src ∈ graphItems) ∧ p.2.id = src.id ∧
      p.2.content = src.content ∧ p.2.source = src.source ∧
      p.2.metadata = src.metadata)
    (mergeGraphStep w) graphItems _ hbase hgstep

/-- C9: fusion frame condition.  Every item in the `mergeResults` output
derives from some input item with the same identifier, keeping that item's
ID, Content, Source and Metadata unchanged (only Score and Provenance are
modified), and every output item's provenance mode is overwritten to
"hybrid". -/
theorem mergeResults_frame (w : Weights) (vectorItems graphItems : List ContextItem) :
    ∀ it ∈ mergeResults w vectorItems graphItems,
      it.provenance.mode = ModeHybrid ∧
      ∃ src, (src ∈ vectorItems ∨ src ∈ graphItems) ∧ it.id = src.id ∧
        it.content = src.content ∧ it.source = src.source ∧
        it.metadata = src.metadata := by
  intro it hit
  rcases List.mem_map.mp hit with ⟨p, hp, hpe⟩
  subst hpe
  refine ⟨rfl, ?_⟩
  simpa using merged_frame w vectorItems graphItems p hp

/-- Concrete items used by the witnesses below. -/
def witItemA : ContextItem :=
  { id := "x", content := "ca", source := "sa", score := 1,
    metadata := [("k", "v")],
    provenance := { mode := ModeVector, backend := "vb", graphPath := [],
                    similarityScore := 1, rerankerScore := 0 } }

/-- Concrete graph item with the same identifier as `witItemA`. -/
def witItemB : ContextItem :=
  { id := "x", content := "cb", source := "sb", score := 2,
    metadata := [],
    provenance := { mode := ModeGraph, backend := "gb", graphPath := ["p", "x"],
                    similarityScore := 0, rerankerScore := 0 } }

/-- Concrete graph item with a fresh identifier. -/
def witItemC : ContextItem :=
  { id := "y", content := "cc", source := "sc", score := 3,
    metadata := [],
    provenance := { mode := ModeGraph, backend := "gb", graphPath := ["p", "y"],
                    similarityScore := 0, rerankerScore := 0 } }

/-- Witness for C1 at a concrete input with an identifier collision. -/
theorem mergeResults_additive_witness :
    (([witItemA].map (·.id)).Nodup ∧ (([witItemB, witItemC].map (·.id)).Nodup)) ∧
    ((∀ it ∈ mergeResults ⟨1, 1⟩ [witItemA] [witItemB, witItemC], it.id = "x" →
      it.score =
        (([witItemA].find? fun a => decide (a.id = "x")).map (·.score * (1 : ℚ))).getD 0 +
        (([witItemB, witItemC].find? fun b => decide (b.id = "x")).map (·.score * (1 : ℚ))).getD 0) ∧
    ((∃ a ∈ [witItemA], a.id = "x") ∨ (∃ b ∈ [witItemB, witItemC], b.id = "x") →
      ∃ it ∈ mergeResults ⟨1, 1⟩ [witItemA] [witItemB, witItemC], it.id = "x")) :=
  ⟨⟨by simp [witItemA], by simp [witItemB, witItemC]⟩,
    mergeResults_additive ⟨1, 1⟩ [witItemA] [witItemB, witItemC]
      (by simp [witItemA]) (by simp [witItemB, witItemC]) "x"⟩

/-- The fused output item produced from the collision of `witItemA` and
`witItemB` under weights `⟨1, 1⟩`. -/
def witMergedX : ContextItem :=
  { id := "x", content := "ca", source := "sa", score := 3,
    metadata := [("k", "v")],
    provenance := { mode := ModeHybrid, backend := "vb", graphPath := ["p", "x"],
                    similarityScore := 1, rerankerScore := 0 } }

theorem witMergedX_mem :
    witMergedX ∈ mergeResults ⟨1, 1⟩ [witItemA] [witItemB, witItemC] := by
  simp [mergeResults, mergeVectorStep, mergeGraphStep, assocFind, assocSet,
    assocUpdate, witItemA, witItemB, witItemC, witMergedX, ModeHybrid]
  norm_num

/-- Witness for C9 at a concrete input. -/
theorem mergeResults_frame_witness :
    witMergedX ∈ mergeResults ⟨1, 1⟩ [witItemA] [witItemB, witItemC] ∧
    (witMergedX.provenance.mode = ModeHybrid ∧
      ∃ src, (src ∈ [witItemA] ∨ src ∈ [witItemB, witItemC]) ∧
        witMergedX.id = src.id ∧ witMergedX.content = src.content ∧
        witMergedX.source = src.source ∧ witMergedX.metadata = src.metadata) :=
  ⟨witMergedX_mem,
    mergeResults_frame ⟨1, 1⟩ [witItemA] [witItemB, witItemC] witMergedX witMergedX_mem⟩

/-! ## Graph data model (`graph` package, src/unnamed/part_005) -/

/-- `graph.Node`. -/
structure Node where
  id : String
  type : String
  content : String
  source : String
  metadata : List (String × String)
deriving DecidableEq

/-- `graph.Edge`.  Go fields `From`/`To` are spelt `fromId`/`toId` because
`from` is reserved in Lean. -/
structure Edge where
  fromId : String
  toId : String
  type : String
  weight : ℚ
  metadata : List (String × String)
deriving DecidableEq

/-- `graph.TraversalResult`.  The Go `Paths` field is `map[string][]string`;
here an association list. -/
structure TraversalResult where
  nodes : List Node
  edges : List Edge
  paths : List (String × List String)
deriving DecidableEq

/-- `graph.TraversalOptions`. -/
structure TraversalOptions where
  depth : Int
  edgeTypes : List String
  nodeTypes : List String
  maxNodes : Int
  minWeight : ℚ
deriving DecidableEq

/-! ## Path scoring: `computePathScore` (part_005 lines 272-298) -/

/-- The `edgeWeights` map built by `computePathScore` (part_005 lines
278-282): keyed by `From + "->" + To`; a later edge with the same endpoints
overwrites an earlier one, exactly as repeated Go map assignment does. -/
def buildEdgeWeights (edges : List Edge) : List (String × ℚ) :=
  edges.foldl (fun m e => assocSet (e.fromId ++ "->" ++ e.toId) e.weight m) []

/-- The Go map read `edgeWeights[key]`, whose missing-key result is the zero
value `0.0`. -/
def lookupWeight (edges : List Edge) (a b : String) : ℚ :=
  (assocFind (a ++ "->" ++ b) (buildEdgeWeights edges)).getD 0

/-- `computePathScore` (part_005 lines 272-298): an empty path scores 1.0;
otherwise multiply, over consecutive path pairs, the looked-up edge weight
(replaced by the default 0.5 whenever the lookup yields 0) times the decay
factor 0.8. -/
def computePathScore (path : List String) (edges : List Edge) : ℚ :=
  if path = [] then 1
  else
    (path.zip path.tail).foldl
      (fun score pq =>
        let weight := lookupWeight edges pq.1 pq.2
        let weight := if weight = 0 then 1/2 else weight
        score * (weight * (4/5))) 1

/-- The factor one hop contributes in `computePathScore`. -/
def hopFactor (edges : List Edge) (a b : String) : ℚ :=
  (if lookupWeight edges a b = 0 then 1/2 else lookupWeight edges a b) * (4/5)

/-- Modelled from the claim wording of C2: per-hop weight is the weight of
the directed edge with these endpoints when one is found in the
traversed-edge list, and 0.5 only when none can be found. -/
def claimedPathScore (path : List String) (edges : List Edge) : ℚ :=
  ((path.zip path.tail).map fun pq =>
    (match edges.find? (fun e => decide (e.fromId = pq.1 ∧ e.toId = pq.2)) with
      | some e => e.weight
      | none => (1 : ℚ)/2) * (4/5)).prod

theorem foldl_mul_eq_prod (f : α → ℚ) (l : List α) (a : ℚ) :
    l.foldl (fun s p => s * f p) a = a * (l.map f).prod := by
  induction l generalizing a with
  | nil => simp
  | cons x rest ih => simp [ih, mul_assoc]

theorem computePathScore_eq_hopProd (path : List String) (edges : List Edge) :
    computePathScore path edges =
      ((path.zip path.tail).map fun pq => hopFactor edges pq.1 pq.2).prod := by
  cases path with
  | nil => simp [computePathScore]
  | cons a rest =>
    rw [computePathScore, if_neg (by simp)]
    rw [show (fun (score : ℚ) (pq : String × String) =>
        let weight := lookupWeight edges pq.1 pq.2
        let weight := if weight = 0 then 1/2 else weight
        score * (weight * (4/5))) =
      (fun (score : ℚ) (pq : String × String) => score * hopFactor edges pq.1 pq.2)
      from by funext s pq; simp [hopFactor]]
    simpa using foldl_mul_eq_prod (fun pq : String × String => hopFactor edges pq.1 pq.2)
      ((a :: rest).zip (a :: rest).tail) 1

/-- C2 (amended): a start node (single-node path, zero hops) is assigned
score exactly 1.0, and a node whose recorded path crosses hops is assigned
the product over hops of `w*0.8`, where `w` is the weight of the **last**
traversed edge recorded for that directed endpoint pair, replaced by the
default 0.5 whenever that looked-up weight is 0 (missing edge, or an edge
stored with weight exactly 0). -/
theorem computePathScore_spec (path : List String) (edges : List Edge) (x : String) :
    computePathScore path edges =
      ((path.zip path.tail).map fun pq => hopFactor edges pq.1 pq.2).prod ∧
    computePathScore [x] edges = 1 := by
  refine ⟨computePathScore_eq_hopProd path edges, ?_⟩
  simp [computePathScore]

/-- C2 counterexample: over a traversed edge stored with weight exactly 0,
the code scores the hop as `0.5*0.8 = 0.4`, while the claim's formula — the
found edge's weight times 0.8 — gives 0. -/
theorem computePathScore_zero_weight_cex :
    computePathScore ["a", "b"] [⟨"a", "b", "t", 0, []⟩] = 2/5 ∧
    claimedPathScore ["a", "b"] [⟨"a", "b", "t", 0, []⟩] = 0 ∧
    computePathScore ["a", "b"] [⟨"a", "b", "t", 0, []⟩] ≠
      claimedPathScore ["a", "b"] [⟨"a", "b", "t", 0, []⟩] := by
  refine ⟨?_, ?_, ?_⟩ <;>
    simp [computePathScore, claimedPathScore, lookupWeight, buildEdgeWeights,
      assocSet, assocFind] <;> norm_num

theorem buildEdgeWeights_mem (edges : List Edge) :
    ∀ p ∈ buildEdgeWeights edges, ∃ e ∈ edges, p.2 = e.weight := by
  apply foldl_inv (fun m => ∀ p ∈ m, ∃ e ∈ edges, p.2 = e.weight)
    (fun m e => assocSet (e.fromId ++ "->" ++ e.toId) e.weight m) edges []
  · simp
  · intro m' e he hInv p hp
    rcases mem_assocSet hp with h1 | h1
    · exact hInv p h1
    · exact ⟨e, he, by rw [h1]⟩

theorem lookupWeight_nonneg {edges : List Edge}
    (hnn : ∀ e ∈ edges, 0 ≤ e.weight) (a b : String) :
    0 ≤ lookupWeight edges a b := by
  rw [lookupWeight]
  cases hm : assocFind (a ++ "->" ++ b) (buildEdgeWeights edges) with
  | none => simp
  | some v =>
    rcases buildEdgeWeights_mem edges _ (assocFind_some_mem hm) with ⟨e, he, hv⟩
    simp only [Option.getD_some]
    rw [show v = e.weight from hv]
    exact hnn e he

theorem hopFactor_pos {edges : List Edge}
    (hnn : ∀ e ∈ edges, 0 ≤ e.weight) (a b : String) :
    0 < hopFactor edges a b := by
  rw [hopFactor]
  by_cases h0 : lookupWeight edges a b = 0
  · rw [if_pos h0]
    norm_num
  · rw [if_neg h0]
    have := lookupWeight_nonneg hnn a b
    have hlt : 0 < lookupWeight edges a b := lt_of_le_of_ne this (Ne.symm h0)
    positivity

theorem computePathScore_pos {edges : List Edge} (path : List String)
    (hnn : ∀ e ∈ edges, 0 ≤ e.weight) : 0 < computePathScore path edges := by
  rw [computePathScore_eq_hopProd]
  apply List.prod_pos
  intro q hq
  rcases List.mem_map.mp hq with ⟨pq, _, hpq⟩
  rw [← hpq]
  exact hopFactor_pos hnn pq.1 pq.2

/-- C10: `computePathScore` detects a missing weight by comparing the map
lookup against 0, so a hop whose looked-up weight is 0 — edge absent, stored
with weight exactly 0.0, or every later same-endpoint edge overwriting it
with weight 0 — contributes the factor `0.5*0.8` instead of 0, and (with the
documented nonnegative edge weights) the resulting node score is strictly
positive rather than 0. -/
theorem computePathScore_zero_default (a b : String) (rest : List String)
    (edges : List Edge) (h0 : lookupWeight edges a b = 0)
    (hnn : ∀ e ∈ edges, 0 ≤ e.weight) :
    computePathScore (a :: b :: rest) edges =
      ((1 : ℚ)/2 * (4/5)) * computePathScore (b :: rest) edges ∧
    0 < computePathScore (a :: b :: rest) edges := by
  constructor
  · rw [computePathScore_eq_hopProd, computePathScore_eq_hopProd]
    simp only [List.tail_cons, List.zip_cons_cons, List.map_cons, List.prod_cons]
    rw [hopFactor, if_pos h0]
  · exact computePathScore_pos _ hnn

/-- Witness for C10 at a concrete zero-weight edge. -/
theorem computePathScore_zero_default_witness :
    (lookupWeight [⟨"a", "b", "t", 0, []⟩] "a" "b" = 0 ∧
      ∀ e ∈ [(⟨"a", "b", "t", 0, []⟩ : Edge)], 0 ≤ e.weight) ∧
    (computePathScore ["a", "b"] [⟨"a", "b", "t", 0, []⟩] =
      ((1 : ℚ)/2 * (4/5)) * computePathScore ["b"] [⟨"a", "b", "t", 0, []⟩] ∧
    0 < computePathScore ["a", "b"] [⟨"a", "b", "t", 0, []⟩]) :=
  ⟨⟨by simp [lookupWeight, buildEdgeWeights, assocSet, assocFind], by simp⟩,
    computePathScore_zero_default "a" "b" [] [⟨"a", "b", "t", 0, []⟩]
      (by simp [lookupWeight, buildEdgeWeights, assocSet, assocFind]) (by simp)⟩

/-! ## Deduplication: `deduplicate` (hybrid/hybrid.go lines 318-335) -/

/-- Go zero value for `ContextItem`; `deduplicate` never actually reads it
because the `seen` indices always stay in bounds. -/
def defaultItem : ContextItem :=
  { id := "", content := "", source := "", score := 0, metadata := [],
    provenance := { mode := "", backend := "", graphPath := [],
                    similarityScore := 0, rerankerScore := 0 } }

/-- Loop of `deduplicate`: `seen` maps an identifier to the index of its
kept item inside `result`; a later occurrence replaces the kept item in
place only when its score is strictly higher. -/
def dedupLoop (seen : List (String × Nat)) (result : List ContextItem) :
    List ContextItem → List ContextItem
  | [] => result
  | item :: rest =>
    match assocFind item.id seen with
    | some idx =>
      if item.score > (result.getD idx defaultItem).score then
        dedupLoop seen (result.set idx item) rest
      else
        dedupLoop seen result rest
    | none =>
        dedupLoop (assocSet item.id result.length seen) (result ++ [item]) rest

/-- `deduplicate` (hybrid.go lines 318-335). -/
def deduplicate (items : List ContextItem) : List ContextItem :=
  dedupLoop [] [] items

/-- `it` occurs in `xs`, every earlier occurrence of its identifier scores
strictly lower, and every later occurrence scores no higher: `it` is the
first occurrence of its identifier achieving the maximal score. -/
def IsFirstMax (xs : List ContextItem) (it : ContextItem) : Prop :=
  ∃ l1 l2, xs = l1 ++ it :: l2 ∧
    (∀ a ∈ l1, a.id = it.id → a.score < it.score) ∧
    (∀ a ∈ l2, a.id = it.id → a.score ≤ it.score)

theorem IsFirstMax.mem {xs : List ContextItem} {it : ContextItem}
    (h : IsFirstMax xs it) : it ∈ xs := by
  rcases h with ⟨l1, l2, rfl, -, -⟩
  simp

theorem IsFirstMax.le_of_mem {xs : List ContextItem} {it a : ContextItem}
    (h : IsFirstMax xs it) (ha : a ∈ xs) (hid : a.id = it.id) :
    a.score ≤ it.score := by
  rcases h with ⟨l1, l2, rfl, h1, h2⟩
  rcases List.mem_append.mp ha with ha | ha
  · exact le_of_lt (h1 a ha hid)
  · rcases List.mem_cons.mp ha with rfl | ha
    · exact le_refl _
    · exact h2 a ha hid

theorem IsFirstMax.extend {xs : List ContextItem} {it a : ContextItem}
    (h : IsFirstMax xs it) (hcond : a.id = it.id → a.score ≤ it.score) :
    IsFirstMax (xs ++ [a]) it := by
  rcases h with ⟨l1, l2, rfl, h1, h2⟩
  refine ⟨l1, l2 ++ [a], by simp, h1, ?_⟩
  intro b hb hbid
  rcases List.mem_append.mp hb with hb | hb
  · exact h2 b hb hbid
  · rcases List.mem_singleton.mp hb with rfl
    exact hcond hbid

/-- Loop invariant tying `seen`, `result` and the already-processed prefix
`pre` together. -/
def DedupInv (pre : List ContextItem) (seen : List (String × Nat))
    (result : List ContextItem) : Prop :=
  (∀ kp ∈ seen, kp.2 < result.length ∧ (result.getD kp.2 defaultItem).id = kp.1) ∧
  (∀ it ∈ result, ∃ j, (it.id, j) ∈ seen) ∧
  (result.map (·.id)).Nodup ∧
  (∀ it ∈ result, IsFirstMax pre it) ∧
  (∀ a ∈ pre, ∃ it ∈ result, it.id = a.id)

theorem getD_mem {l : List β} {i : ℕ} (h : i < l.length) (d : β) :
    l.getD i d ∈ l := by
  rw [List.getD_eq_getElem l d h]
  exact List.getElem_mem h

theorem getD_set_self {l : List β} {i : ℕ} (h : i < l.length) (a d : β) :
    (l.set i a).getD i d = a := by
  rw [List.getD_eq_getElem _ _ (by simpa using h), List.getElem_set]
  simp

theorem getD_set_ne {l : List β} {i j : ℕ} (h : i ≠ j) (a d : β) :
    (l.set i a).getD j d = l.getD j d := by
  simp [List.getD_eq_getElem?_getD, List.getElem?_set_ne h]

theorem set_getElem?_self {l : List β} {n : ℕ} {a : β} (h : l[n]? = some a) :
    l.set n a = l := by
  induction l generalizing n with
  | nil => simp at h
  | cons b t ih =>
    cases n with
    | zero =>
      simp only [List.getElem?_cons_zero] at h
      simp [Option.some.inj h]
    | succ n =>
      simp only [List.getElem?_cons_succ] at h
      simp [ih h]

theorem dedupLoop_spec :
    ∀ (todo pre : List ContextItem) (seen : List (String × Nat))
      (result : List ContextItem), DedupInv pre seen result →
      ((dedupLoop seen result todo).map (·.id)).Nodup ∧
      (∀ it ∈ dedupLoop seen result todo, IsFirstMax (pre ++ todo) it) ∧
      (∀ a ∈ pre ++ todo, ∃ it ∈ dedupLoop seen result todo, it.id = a.id) := by
  intro todo
  induction todo with
  | nil =>
    intro pre seen result hInv
    obtain ⟨-, -, h3, h4, h5⟩ := hInv
    simpa [dedupLoop] using ⟨h3, h4, h5⟩
  | cons item rest ih =>
    intro pre seen result hInv
    obtain ⟨hseen, hcover, hnodup, hfm, hpre⟩ := hInv
    rw [show pre ++ item :: rest = (pre ++ [item]) ++ rest by simp]
    cases hfound : assocFind item.id seen with
    | some idx =>
      obtain ⟨hidx_lt, hidx_id⟩ := hseen _ (assocFind_some_mem hfound)
      dsimp only at hidx_lt hidx_id
      have hold_mem : result.getD idx defaultItem ∈ result := getD_mem hidx_lt _
      have hold_elem : result.getD idx defaultItem = result[idx] :=
        List.getD_eq_getElem result defaultItem hidx_lt
      by_cases hgt : item.score > (result.getD idx defaultItem).score
      · have hloop : dedupLoop seen result (item :: rest) =
            dedupLoop seen (result.set idx item) rest := by
          simp only [dedupLoop, hfound, if_pos hgt]
        rw [hloop]
        apply ih (pre ++ [item]) seen (result.set idx item)
        have hmem_item : item ∈ result.set idx item :=
          List.mem_iff_getElem.mpr ⟨idx, by simpa [List.length_set] using hidx_lt,
            by rw [List.getElem_set]; simp⟩
        refine ⟨?_, ?_, ?_, ?_, ?_⟩
        · intro kp hkp
          obtain ⟨hlt, hid⟩ := hseen kp hkp
          refine ⟨by simpa [List.length_set] using hlt, ?_⟩
          by_cases hji : kp.2 = idx
          · rw [hji, getD_set_self hidx_lt]
            rw [hji] at hid
            rw [← hid, hidx_id]
          · rw [getD_set_ne (fun h => hji h.symm), hid]
        · intro it hit
          rcases List.mem_or_eq_of_mem_set hit with h1 | h1
          · exact hcover it h1
          · exact ⟨idx, by rw [h1]; exact assocFind_some_mem hfound⟩
        · have hietm : (result.map (·.id))[idx]? = some item.id := by
            rw [List.getElem?_map, List.getElem?_eq_getElem hidx_lt]
            simp only [Option.map_some']
            rw [← hold_elem, hidx_id]
          rw [List.map_set, set_getElem?_self hietm]
          exact hnodup
        · intro it hit
          rcases List.mem_iff_getElem.mp hit with ⟨j, hj, hjit⟩
          have hjlt : j < result.length := by simpa [List.length_set] using hj
          rw [List.getElem_set] at hjit
          by_cases hji : idx = j
          · rw [if_pos hji] at hjit
            subst hjit
            refine ⟨pre, [], by simp, ?_, by simp⟩
            intro a ha haid
            have hle : a.score ≤ (result.getD idx defaultItem).score :=
              (hfm _ hold_mem).le_of_mem ha (by rw [haid, ← hidx_id])
            exact lt_of_le_of_lt hle hgt
          · rw [if_neg hji] at hjit
            have hmem : it ∈ result := by
              rw [← hjit]
              exact List.getElem_mem hjlt
            have hidne : it.id ≠ item.id := by
              intro hEq
              apply hji
              have hinj : result.getD idx defaultItem = it :=
                (List.inj_on_of_nodup_map hnodup) hold_mem hmem (by rw [hidx_id, hEq])
              rw [hold_elem, ← hjit] at hinj
              exact (List.Nodup.getElem_inj_iff (List.Nodup.of_map _ hnodup)).mp hinj
            exact (hfm it hmem).extend (fun hEq => absurd hEq.symm hidne)
        · intro a ha
          rcases List.mem_append.mp ha with ha | ha
          · rcases hpre a ha with ⟨it', hit', hid'⟩
            by_cases hcase : it'.id = item.id
            · exact ⟨item, hmem_item, by rw [← hcase, hid']⟩
            · rcases List.mem_iff_getElem.mp hit' with ⟨j, hj, hjit⟩
              have hji : idx ≠ j := by
                intro hEq
                subst hEq
                apply hcase
                rw [← hjit, ← hold_elem]
                exact hidx_id
              have hmem' : it' ∈ result.set idx item := by
                rw [List.mem_iff_getElem]
                refine ⟨j, by simpa [List.length_set] using hj, ?_⟩
                rw [List.getElem_set, if_neg hji, hjit]
              exact ⟨it', hmem', hid'⟩
          · have hEq : a = item := List.mem_singleton.mp ha
            exact ⟨item, hmem_item, by rw [hEq]⟩
      · have hloop : dedupLoop seen result (item :: rest) =
            dedupLoop seen result rest := by
          simp only [dedupLoop, hfound, if_neg hgt]
        rw [hloop]
        apply ih (pre ++ [item]) seen result
        refine ⟨hseen, hcover, hnodup, ?_, ?_⟩
        · intro it hmem
          apply (hfm it hmem).extend
          intro hEq
          have hiteq : it = result.getD idx defaultItem :=
            (List.inj_on_of_nodup_map hnodup) hmem hold_mem (by rw [← hEq, hidx_id])
          rw [hiteq]
          exact not_lt.mp hgt
        · intro a ha
          rcases List.mem_append.mp ha with ha | ha
          · exact hpre a ha
          · have hEq : a = item := List.mem_singleton.mp ha
            exact ⟨result.getD idx defaultItem, hold_mem, by rw [hEq]; exact hidx_id⟩
    | none =>
      have hloop : dedupLoop seen result (item :: rest) =
          dedupLoop (assocSet item.id result.length seen) (result ++ [item]) rest := by
        simp only [dedupLoop, hfound]
      rw [hloop]
      apply ih (pre ++ [item]) (assocSet item.id result.length seen) (result ++ [item])
      have hnotin : ∀ it ∈ result, it.id ≠ item.id := by
        intro it hit
        rcases hcover it hit with ⟨j, hj⟩
        exact assocFind_eq_none.mp hfound (it.id, j) hj
      have hset : assocSet item.id result.length seen =
          seen ++ [(item.id, result.length)] := assocSet_of_find_none _ hfound
      refine ⟨?_, ?_, ?_, ?_, ?_⟩
      · intro kp hkp
        rw [hset] at hkp
        rcases List.mem_append.mp hkp with hkp | hkp
        · obtain ⟨hlt, hid⟩ := hseen kp hkp
          exact ⟨by simp; omega, by rw [List.getD_append _ _ _ _ hlt]; exact hid⟩
        · rcases List.mem_singleton.mp hkp with rfl
          refine ⟨by simp, ?_⟩
          rw [List.getD_append_right _ _ _ _ (le_refl _)]
          simp
      · intro it hit
        rcases List.mem_append.mp hit with hit | hit
        · rcases hcover it hit with ⟨j, hj⟩
          exact ⟨j, by rw [hset]; exact List.mem_append.mpr (Or.inl hj)⟩
        · rcases List.mem_singleton.mp hit with rfl
          exact ⟨result.length, by rw [hset]; simp⟩
      · rw [List.map_append]
        simp only [List.map_cons, List.map_nil]
        rw [List.nodup_append]
        refine ⟨hnodup, by simp, ?_⟩
        intro x hx
        rcases List.mem_map.mp hx with ⟨it, hit, rfl⟩
        simp only [List.mem_singleton]
        exact hnotin it hit
      · intro it hit
        rcases List.mem_append.mp hit with hit | hit
        · exact (hfm it hit).extend (fun hEq => absurd hEq.symm (hnotin it hit))
        · rcases List.mem_singleton.mp hit with rfl
          refine ⟨pre, [], by simp, ?_, by simp⟩
          intro a ha haid
          exfalso
          rcases hpre a ha with ⟨it', hit', hid'⟩
          exact hnotin it' hit' (by rw [hid', haid])
      · intro a ha
        rcases List.mem_append.mp ha with ha | ha
        · rcases hpre a ha with ⟨it', hit', hid'⟩
          exact ⟨it', List.mem_append.mpr (Or.inl hit'), hid'⟩
        · have hEq : a = item := List.mem_singleton.mp ha
          exact ⟨item, by simp, by rw [hEq]⟩

theorem deduplicate_spec (items : List ContextItem) :
    ((deduplicate items).map (·.id)).Nodup ∧
    (∀ it ∈ deduplicate items, IsFirstMax items it) ∧
    (∀ a ∈ items, ∃ it ∈ deduplicate items, it.id = a.id) := by
  have h := dedupLoop_spec items [] [] []
    ⟨by simp, by simp, by simp, by simp, by simp⟩
  simpa [deduplicate] using h

/-! ## Hybrid orchestrator (`hybrid/hybrid.go` lines 12-272) -/

/-- `hybrid.PolicyParallel`. -/
def PolicyParallel : String := "parallel"

/-- `hybrid.PolicyVectorThenGraph`. -/
def PolicyVectorThenGraph : String := "vector_then_graph"

/-- `hybrid.PolicyGraphThenVector`. -/
def PolicyGraphThenVector : String := "graph_then_vector"

/-- `hybrid.RetrieverConfig`.  The optional reranker is
`Rerank(ctx, q, items) → (items, error)`; the observer is a pure side
channel (tracing only) and is not modelled. -/
structure HybridConfig where
  vector : Option Retriever
  graph : Option Retriever
  policy : String
  weights : Weights
  reranker : Option (Query → List ContextItem → Except Err (List ContextItem))
  dedupByID : Bool

/-- `retrieveParallel` (hybrid.go lines 134-194).  Both branch results are
fully computed before the error checks (the Go code performs a rendezvous on
both channels before inspecting errors), the vector error is checked first,
and on error the Go code returns `nil, nil, 0, err`. -/
def retrieveParallel (cfg : HybridConfig) (q : Query) :
    List ContextItem × List String × Int × Option Err :=
  let vectorRes : List ContextItem × Int × Option Err :=
    match cfg.vector with
    | none => ([], 0, none)
    | some v =>
      match v q with
      | .error e => ([], 0, some e)
      | .ok res => (res.items, res.metadata.totalCandidates, none)
  let graphRes : List ContextItem × Int × Option Err :=
    match cfg.graph with
    | none => ([], 0, none)
    | some g =>
      match g q with
      | .error e => ([], 0, some e)
      | .ok res => (res.items, res.metadata.totalCandidates, none)
  match vectorRes.2.2 with
  | some e => ([], [], 0, some e)
  | none =>
    match graphRes.2.2 with
    | some e => ([], [], 0, some e)
    | none =>
      let items := mergeResults cfg.weights vectorRes.1 graphRes.1
      let modesUsed := [ModeHybrid]
        ++ (if vectorRes.1.length > 0 then [ModeVector] else [])
        ++ (if graphRes.1.length > 0 then [ModeGraph] else [])
      (items, modesUsed, vectorRes.2.1 + graphRes.2.1, none)

/-- The entity hints built from vector items in `retrieveVectorThenGraph`
(hybrid.go lines 217-223): `EntityHint{ID: item.ID, Name: item.ID}` with the
remaining fields at their zero values. -/
def vtgEntities (vectorItems : List ContextItem) : List EntityHint :=
  vectorItems.map fun item => { id := item.id, type := "", name := item.id,
                                confidence := 0 }

/-- Second half of `retrieveVectorThenGraph` (hybrid.go lines 213-238): the
graph expansion runs only when a graph retriever is configured and the
vector pass returned at least one item.  The second component logs every
retriever invocation (which retriever, and with which query), in order. -/
def vtgGraphStage (cfg : HybridConfig) (q : Query) (vectorItems : List ContextItem)
    (modesUsed : List String) (totalCandidates : Int)
    (callLog : List (String × Query)) :
    (List ContextItem × List String × Int × Option Err) × List (String × Query) :=
  match cfg.graph with
  | some g =>
    if vectorItems.length > 0 then
      let graphQuery := { q with entities := vtgEntities vectorItems }
      match g graphQuery with
      | .error e => (([], [], 0, some e), callLog ++ [(ModeGraph, graphQuery)])
      | .ok res =>
        ((mergeResults cfg.weights vectorItems res.items,
          modesUsed ++ [ModeGraph],
          totalCandidates + res.metadata.totalCandidates, none),
         callLog ++ [(ModeGraph, graphQuery)])
    else
      ((mergeResults cfg.weights vectorItems [], modesUsed, totalCandidates, none),
       callLog)
  | none =>
    ((mergeResults cfg.weights vectorItems [], modesUsed, totalCandidates, none),
     callLog)

/-- `retrieveVectorThenGraph` (hybrid.go lines 197-239), instrumented with
the invocation log. -/
def retrieveVectorThenGraph (cfg : HybridConfig) (q : Query) :
    (List ContextItem × List String × Int × Option Err) × List (String × Query) :=
  match cfg.vector with
  | none => vtgGraphStage cfg q [] [ModeHybrid] 0 []
  | some v =>
    match v q with
    | .error e => (([], [], 0, some e), [(ModeVector, q)])
    | .ok res =>
      vtgGraphStage cfg q res.items [ModeHybrid, ModeVector]
        res.metadata.totalCandidates [(ModeVector, q)]

/-- Second half of `retrieveGraphThenVector` (hybrid.go lines 258-271): the
vector pass runs unconditionally with the original query. -/
def gtvVectorStage (cfg : HybridConfig) (q : Query) (graphItems : List ContextItem)
    (modesUsed : List String) (totalCandidates : Int) :
    List ContextItem × List String × Int × Option Err :=
  match cfg.vector with
  | none => (mergeResults cfg.weights [] graphItems, modesUsed, totalCandidates, none)
  | some v =>
    match v q with
    | .error e => ([], [], 0, some e)
    | .ok res =>
      (mergeResults cfg.weights res.items graphItems,
       modesUsed ++ [ModeVector],
       totalCandidates + res.metadata.totalCandidates, none)

/-- `retrieveGraphThenVector` (hybrid.go lines 242-272). -/
def retrieveGraphThenVector (cfg : HybridConfig) (q : Query) :
    List ContextItem × List String × Int × Option Err :=
  match cfg.graph with
  | none => gtvVectorStage cfg q [] [ModeHybrid] 0
  | some g =>
    match g q with
    | .error e => ([], [], 0, some e)
    | .ok res =>
      gtvVectorStage cfg q res.items [ModeHybrid, ModeGraph]
        res.metadata.totalCandidates

/-- The policy switch in `Retriever.Retrieve` (hybrid.go lines 80-89); an
unknown policy falls through to parallel. -/
def policyRun (cfg : HybridConfig) (q : Query) :
    List ContextItem × List String × Int × Option Err :=
  if cfg.policy = PolicyParallel then retrieveParallel cfg q
  else if cfg.policy = PolicyVectorThenGraph then (retrieveVectorThenGraph cfg q).1
  else if cfg.policy = PolicyGraphThenVector then retrieveGraphThenVector cfg q
  else retrieveParallel cfg q

/-- The `sort.Slice` call of hybrid.go lines 101-103: sort by strictly
descending score.  Go's `sort.Slice` is an unspecified (unstable)
permutation sorted by the comparator; merge sort fixes one such
permutation. -/
def sortByScore (items : List ContextItem) : List ContextItem :=
  items.mergeSort fun a b => decide (b.score ≤ a.score)

/-- `Retriever.Retrieve` (hybrid.go lines 72-131): run the policy, fail
fast on a policy error (`return nil, err`), optionally deduplicate, sort by
descending score, truncate to a positive top-K, and optionally rerank
(failing fast on a reranker error). -/
def hybridRetrieve (cfg : HybridConfig) (q : Query) : Option Result × Option Err :=
  let run := policyRun cfg q
  match run.2.2.2 with
  | some e => (none, some e)
  | none =>
    let items1 := if cfg.dedupByID then deduplicate run.1 else run.1
    let items2 := sortByScore items1
    let items3 := if 0 < q.topK ∧ q.topK < (items2.length : Int) then
        items2.take q.topK.toNat
      else items2
    match cfg.reranker with
    | none =>
      (some { items := items3, query := q,
              metadata := { totalCandidates := run.2.2.1, latencyMS := 0,
                            modesUsed := run.2.1, cacheHit := false } }, none)
    | some rr =>
      match rr q items3 with
      | .error e => (none, some e)
      | .ok items4 =>
        (some { items := items4, query := q,
                metadata := { totalCandidates := run.2.2.1, latencyMS := 0,
                              modesUsed := run.2.1, cacheHit := false } }, none)

/-- C4: VectorThenGraph chaining.  With both retrievers configured and a
successful vector pass, the invocation log shows the vector retriever called
first with the original query; when the vector pass returns items, the graph
retriever is then called exactly once, with a query identical to the
original except that `entities` is replaced by one
`EntityHint{ID: item.ID, Name: item.ID}` per vector item in order; when the
vector pass returns no items, the graph retriever is never called. -/
theorem vectorThenGraph_chaining (cfg : HybridConfig) (q : Query)
    (v g : Retriever) (rv : Result)
    (hv : cfg.vector = some v) (hg : cfg.graph = some g) (hres : v q = .ok rv) :
    (retrieveVectorThenGraph cfg q).2 =
      if rv.items = [] then [(ModeVector, q)]
      else [(ModeVector, q),
        (ModeGraph, { q with entities := rv.items.map fun item =>
          { id := item.id, type := "", name := item.id, confidence := 0 } })] := by
  by_cases hitems : rv.items = []
  · simp [retrieveVectorThenGraph, hv, hres, vtgGraphStage, hg, hitems]
  · rw [if_neg hitems]
    have hlen : 0 < rv.items.length := List.length_pos.mpr hitems
    cases hgq : g { q with entities := rv.items.map fun item =>
        { id := item.id, type := "", name := item.id, confidence := 0 } } with
    | error e =>
      simp [retrieveVectorThenGraph, hv, hres, vtgGraphStage, hg,
        vtgEntities, hgq, hlen]
    | ok res2 =>
      simp [retrieveVectorThenGraph, hv, hres, vtgGraphStage, hg,
        vtgEntities, hgq, hlen]

/-- Vector retriever used by sequencing witnesses: always succeeds with one
fixed item. -/
def witVectorRetriever : Retriever := fun q =>
  .ok { items := [witItemA], query := q,
        metadata := { totalCandidates := 1, latencyMS := 0,
                      modesUsed := [ModeVector], cacheHit := false } }

/-- Graph retriever used by sequencing witnesses: always succeeds with no
items. -/
def witGraphRetriever : Retriever := fun q =>
  .ok { items := [], query := q,
        metadata := { totalCandidates := 0, latencyMS := 0,
                      modesUsed := [ModeGraph], cacheHit := false } }

/-- Query used by the orchestrator witnesses. -/
def witQuery : Query :=
  { text := "t", embedding := [], entities := [], filters := [], maxDepth := 0,
    topK := 1, modes := [], minScore := 0, metadata := [] }

/-- Configuration used by the sequencing witness. -/
def witVtgConfig : HybridConfig :=
  { vector := some witVectorRetriever, graph := some witGraphRetriever,
    policy := PolicyVectorThenGraph, weights := ⟨1, 1⟩, reranker := none,
    dedupByID := false }

/-- Witness for C4 at a concrete configuration. -/
theorem vectorThenGraph_chaining_witness :
    (witVtgConfig.vector = some witVectorRetriever ∧
     witVtgConfig.graph = some witGraphRetriever ∧
     witVectorRetriever witQuery = .ok
       { items := [witItemA], query := witQuery,
         metadata := { totalCandidates := 1, latencyMS := 0,
                       modesUsed := [ModeVector], cacheHit := false } }) ∧
    (retrieveVectorThenGraph witVtgConfig witQuery).2 =
      (if ({ items := [witItemA], query := witQuery,
             metadata := { totalCandidates := 1, latencyMS := 0,
                           modesUsed := [ModeVector], cacheHit := false } } : Result).items = [] then
        [(ModeVector, witQuery)]
      else [(ModeVector, witQuery),
        (ModeGraph, { witQuery with entities :=
          ({ items := [witItemA], query := witQuery,
             metadata := { totalCandidates := 1, latencyMS := 0,
                           modesUsed := [ModeVector], cacheHit := false } } : Result).items.map fun item =>
          { id := item.id, type := "", name := item.id, confidence := 0 } })]) :=
  ⟨⟨rfl, rfl, rfl⟩,
    vectorThenGraph_chaining witVtgConfig witQuery witVectorRetriever
      witGraphRetriever _ rfl rfl rfl⟩

theorem hybridRetrieve_no_partial (cfg : HybridConfig) (q : Query) (e : Err) :
    (hybridRetrieve cfg q).2 = some e → (hybridRetrieve cfg q).1 = none := by
  unfold hybridRetrieve
  cases hrun : (policyRun cfg q).2.2.2 with
  | some e2 => simp [hrun]
  | none =>
    simp only [hrun]
    repeat' split
    all_goals simp

/-- C5: Parallel policy fail-fast with vector precedence.  Under the
parallel policy, a vector-retriever error is returned (with a nil Result)
regardless of the graph branch's outcome — in particular when both error,
the vector error wins; a graph error with a successful vector branch is
returned likewise; and an error is never accompanied by a Result. -/
theorem parallel_fail_fast (cfg : HybridConfig) (q : Query)
    (hpol : cfg.policy = PolicyParallel) :
    (∀ v e, cfg.vector = some v → v q = .error e →
      hybridRetrieve cfg q = (none, some e)) ∧
    (∀ v rv g e, cfg.vector = some v → v q = .ok rv →
      cfg.graph = some g → g q = .error e →
      hybridRetrieve cfg q = (none, some e)) ∧
    (∀ g e, cfg.vector = none → cfg.graph = some g → g q = .error e →
      hybridRetrieve cfg q = (none, some e)) ∧
    (∀ e, (hybridRetrieve cfg q).2 = some e → (hybridRetrieve cfg q).1 = none) := by
  refine ⟨?_, ?_, ?_, fun e => hybridRetrieve_no_partial cfg q e⟩
  · intro v e hv hve
    simp [hybridRetrieve, policyRun, hpol, retrieveParallel, hv, hve]
  · intro v rv g e hv hvr hg hge
    simp [hybridRetrieve, policyRun, hpol, retrieveParallel, hv, hvr, hg, hge]
  · intro g e hv hg hge
    simp [hybridRetrieve, policyRun, hpol, retrieveParallel, hv, hg, hge]

/-- Vector retriever for the parallel witness: always fails. -/
def witFailingVector : Retriever := fun _ => .error "vector boom"

/-- Graph retriever for the parallel witness: always fails. -/
def witFailingGraph : Retriever := fun _ => .error "graph boom"

/-- Configuration for the parallel fail-fast witness: both branches fail. -/
def witParConfig : HybridConfig :=
  { vector := some witFailingVector, graph := some witFailingGraph,
    policy := PolicyParallel, weights := ⟨1, 1⟩, reranker := none,
    dedupByID := false }

/-- Witness for C5: with both branches failing, the vector error is
returned with a nil Result. -/
theorem parallel_fail_fast_witness :
    (witParConfig.policy = PolicyParallel ∧
     witParConfig.vector = some witFailingVector ∧
     witFailingVector witQuery = .error "vector boom") ∧
    hybridRetrieve witParConfig witQuery = (none, some "vector boom") :=
  ⟨⟨rfl, rfl, rfl⟩,
    (parallel_fail_fast witParConfig witQuery rfl).1 witFailingVector
      "vector boom" rfl rfl⟩

/-- The item list after the policy stage and the optional dedup — the list
that `Retriever.Retrieve` sorts and truncates (hybrid.go lines 95-103). -/
def postDedup (cfg : HybridConfig) (q : Query) : List ContextItem :=
  if cfg.dedupByID then deduplicate (policyRun cfg q).1 else (policyRun cfg q).1

theorem hybridRetrieve_items_eq (cfg : HybridConfig) (q : Query) (res : Result)
    (hrr : cfg.reranker = none) (hret : hybridRetrieve cfg q = (some res, none)) :
    (policyRun cfg q).2.2.2 = none ∧
    res.items =
      (if 0 < q.topK ∧ q.topK < ((sortByScore (postDedup cfg q)).length : Int)
        then (sortByScore (postDedup cfg q)).take q.topK.toNat
        else sortByScore (postDedup cfg q)) := by
  have hok : (policyRun cfg q).2.2.2 = none := by
    by_contra hne
    rcases Option.ne_none_iff_exists'.mp hne with ⟨e, he⟩
    unfold hybridRetrieve at hret
    simp [he] at hret
  refine ⟨hok, ?_⟩
  unfold hybridRetrieve at hret
  simp only [hok, hrr] at hret
  rw [Prod.mk.injEq] at hret
  have h2 := Option.some.inj hret.1
  rw [← h2]
  simp [postDedup]

theorem sortByScore_pairwise (items : List ContextItem) :
    List.Pairwise (fun a b => b.score ≤ a.score) (sortByScore items) := by
  have h := @List.sorted_mergeSort ContextItem
    (fun a b : ContextItem => decide (b.score ≤ a.score))
    (fun a b c h1 h2 => by
      simp only [decide_eq_true_eq] at h1 h2 ⊢
      exact le_trans h2 h1)
    (fun a b => by
      simp only [Bool.or_eq_true, decide_eq_true_eq]
      exact le_total b.score a.score)
    items
  exact h.imp fun h => of_decide_eq_true h

theorem sortByScore_perm (items : List ContextItem) :
    (sortByScore items).Perm items := List.mergeSort_perm items _

/-- C6: top-K truncation.  With a positive `TopK = k`, no reranker, and a
successfully produced Result, the Result holds exactly `min k n` items
(`n` the number of post-dedup items), in descending score order, and they
are exactly the `k` highest-scoring post-dedup items: some permutation of
the post-dedup list extends the returned items, and every omitted item
scores no higher than every returned one. -/
theorem topK_truncation (cfg : HybridConfig) (q : Query) (k : Int) (res : Result)
    (hrr : cfg.reranker = none) (hk : q.topK = k) (hkpos : 0 < k)
    (hret : hybridRetrieve cfg q = (some res, none)) :
    ∃ rest : List ContextItem,
      (res.items.length : Int) = min k ((postDedup cfg q).length : Int) ∧
      List.Pairwise (fun a b => b.score ≤ a.score) res.items ∧
      (res.items ++ rest).Perm (postDedup cfg q) ∧
      ∀ a ∈ res.items, ∀ b ∈ rest, b.score ≤ a.score := by
  obtain ⟨-, hitems⟩ := hybridRetrieve_items_eq cfg q res hrr hret
  subst hk
  have hlen : (sortByScore (postDedup cfg q)).length = (postDedup cfg q).length :=
    (sortByScore_perm (postDedup cfg q)).length_eq
  have hpair := sortByScore_pairwise (postDedup cfg q)
  by_cases hcond : 0 < q.topK ∧ q.topK < ((sortByScore (postDedup cfg q)).length : Int)
  · rw [if_pos hcond] at hitems
    refine ⟨(sortByScore (postDedup cfg q)).drop q.topK.toNat, ?_, ?_, ?_, ?_⟩
    · rw [hitems]
      rw [List.length_take]
      have h1 := hcond.2
      rw [hlen] at h1
      have h2 : (q.topK.toNat : Int) = q.topK := Int.toNat_of_nonneg (le_of_lt hkpos)
      have h3 : q.topK.toNat ≤ (postDedup cfg q).length := by omega
      push_cast
      omega
    · rw [hitems]
      exact hpair.sublist (List.take_sublist _ _)
    · rw [hitems, List.take_append_drop]
      exact sortByScore_perm (postDedup cfg q)
    · rw [hitems]
      have hsplit := List.take_append_drop q.topK.toNat (sortByScore (postDedup cfg q))
      have hp2 : List.Pairwise (fun a b => b.score ≤ a.score)
          ((sortByScore (postDedup cfg q)).take q.topK.toNat ++
            (sortByScore (postDedup cfg q)).drop q.topK.toNat) := by
        rw [hsplit]
        exact hpair
      exact (List.pairwise_append.mp hp2).2.2
  · rw [if_neg hcond] at hitems
    refine ⟨[], ?_, ?_, ?_, ?_⟩
    · rw [hitems]
      have h1 : ¬ q.topK < ((sortByScore (postDedup cfg q)).length : Int) := by
        intro hc
        exact hcond ⟨hkpos, hc⟩
      rw [hlen] at h1
      push_cast
      omega
    · rw [hitems]
      exact hpair
    · rw [hitems, List.append_nil]
      exact sortByScore_perm (postDedup cfg q)
    · intro a _ b hb
      simp at hb

/-- C7: deduplication.  With `dedupByID = true` and no reranker, no two
items of the returned Result share an identifier, each returned item occurs
in the pre-dedup list with the maximum score among all occurrences of its
identifier, and it is the earliest occurrence achieving that score (a later
occurrence would only have replaced it with a strictly higher score). -/
theorem dedup_retrieve (cfg : HybridConfig) (q : Query) (res : Result)
    (hd : cfg.dedupByID = true) (hrr : cfg.reranker = none)
    (hret : hybridRetrieve cfg q = (some res, none)) :
    (res.items.map (·.id)).Nodup ∧
    ∀ it ∈ res.items,
      it ∈ (policyRun cfg q).1 ∧
      (∀ a ∈ (policyRun cfg q).1, a.id = it.id → a.score ≤ it.score) ∧
      ∃ l1 l2, (policyRun cfg q).1 = l1 ++ it :: l2 ∧
        ∀ a ∈ l1, a.id = it.id → a.score < it.score := by
  obtain ⟨-, hitems⟩ := hybridRetrieve_items_eq cfg q res hrr hret
  have hpd : postDedup cfg q = deduplicate (policyRun cfg q).1 := by
    simp [postDedup, hd]
  obtain ⟨hnodup, hfm, -⟩ := deduplicate_spec (policyRun cfg q).1
  have hsub : res.items.Sublist (sortByScore (postDedup cfg q)) := by
    rw [hitems]
    split
    · exact List.take_sublist _ _
    · exact List.Sublist.refl _
  have hperm : (sortByScore (postDedup cfg q)).Perm (deduplicate (policyRun cfg q).1) := by
    rw [← hpd]
    exact sortByScore_perm _
  constructor
  · apply (hsub.map (·.id)).nodup
    exact ((hperm.map (·.id)).nodup_iff).mpr hnodup
  · intro it hit
    have hmem : it ∈ deduplicate (policyRun cfg q).1 :=
      (hperm.mem_iff).mp (hsub.subset hit)
    have hf := hfm it hmem
    refine ⟨hf.mem, fun a ha hid => hf.le_of_mem ha hid, ?_⟩
    rcases hf with ⟨l1, l2, hsplit, h1, -⟩
    exact ⟨l1, l2, hsplit, h1⟩

/-- Configuration used by the top-K and dedup witnesses. -/
def witHybridConfig : HybridConfig :=
  { vector := some witVectorRetriever, graph := none,
    policy := PolicyParallel, weights := ⟨1, 1⟩, reranker := none,
    dedupByID := true }

/-- The Result produced by `witHybridConfig` on `witQuery`. -/
def witHybridResult : Result :=
  { items := [{ id := "x", content := "ca", source := "sa", score := 1,
                metadata := [("k", "v")],
                provenance := { mode := ModeHybrid, backend := "vb", graphPath := [],
                                similarityScore := 1, rerankerScore := 0 } }],
    query := witQuery,
    metadata := { totalCandidates := 1, latencyMS := 0,
                  modesUsed := [ModeHybrid, ModeVector], cacheHit := false } }

theorem witHybrid_eval :
    hybridRetrieve witHybridConfig witQuery = (some witHybridResult, none) := by
  simp [hybridRetrieve, policyRun, retrieveParallel, witHybridConfig,
    witVectorRetriever, witQuery, witItemA, mergeResults, mergeVectorStep,
    mergeGraphStep, assocFind, assocSet, deduplicate, dedupLoop, sortByScore,
    ModeHybrid, ModeVector, PolicyParallel, witHybridResult]

/-- Witness for C6 at a concrete configuration. -/
theorem topK_truncation_witness :
    (witHybridConfig.reranker = none ∧ witQuery.topK = 1 ∧ (0 : Int) < 1 ∧
     hybridRetrieve witHybridConfig witQuery = (some witHybridResult, none)) ∧
    (∃ rest : List ContextItem,
      (witHybridResult.items.length : Int) =
        min 1 ((postDedup witHybridConfig witQuery).length : Int) ∧
      List.Pairwise (fun a b => b.score ≤ a.score) witHybridResult.items ∧
      (witHybridResult.items ++ rest).Perm (postDedup witHybridConfig witQuery) ∧
      ∀ a ∈ witHybridResult.items, ∀ b ∈ rest, b.score ≤ a.score) :=
  ⟨⟨rfl, rfl, by norm_num, witHybrid_eval⟩,
    topK_truncation witHybridConfig witQuery 1 witHybridResult rfl rfl
      (by norm_num) witHybrid_eval⟩

/-- Witness for C7 at a concrete configuration. -/
theorem dedup_retrieve_witness :
    (witHybridConfig.dedupByID = true ∧ witHybridConfig.reranker = none ∧
     hybridRetrieve witHybridConfig witQuery = (some witHybridResult, none)) ∧
    ((witHybridResult.items.map (·.id)).Nodup ∧
     ∀ it ∈ witHybridResult.items,
      it ∈ (policyRun witHybridConfig witQuery).1 ∧
      (∀ a ∈ (policyRun witHybridConfig witQuery).1, a.id = it.id →
        a.score ≤ it.score) ∧
      ∃ l1 l2, (policyRun witHybridConfig witQuery).1 = l1 ++ it :: l2 ∧
        ∀ a ∈ l1, a.id = it.id → a.score < it.score) :=
  ⟨⟨rfl, rfl, witHybrid_eval⟩,
    dedup_retrieve witHybridConfig witQuery witHybridResult rfl rfl witHybrid_eval⟩

/-! ## In-memory knowledge graph BFS: `KnowledgeGraph.Traverse`
(memory/graph.go lines 28-107) -/

/-- `memory.KnowledgeGraph` state: the node map is modelled as the list of
its values (`nodes map[string]Node`, keyed by `Node.ID`), and the edge map
(`edges map[string][]Edge`, keyed by `Edge.From`) as the flat list of all
edges, per-source lists being recovered by filtering on `fromId`. -/
structure KnowledgeGraph where
  name : String
  nodes : List Node
  edges : List Edge

/-- The map read `kg.nodes[id]`. -/
def nodeById (g : KnowledgeGraph) (id : String) : Option Node :=
  g.nodes.find? fun n => decide (n.id = id)

/-- The map read `kg.edges[id]` (insertion order preserved). -/
def edgesFrom (g : KnowledgeGraph) (id : String) : List Edge :=
  g.edges.filter fun e => decide (e.fromId = id)

/-- One queue entry of the BFS (`queueItem` in `Traverse`). -/
structure QueueItem where
  nodeID : String
  path : List String
  depth : Int
deriving DecidableEq

/-- All edge targets of the graph; the finite universe the termination
measure counts over. -/
def allTargets (g : KnowledgeGraph) : List String := g.edges.map (·.toId)

/-- The edges accepted while expanding `id` (memory/graph.go lines 76-99):
edge-type filter, minimum-weight filter, and the unvisited-target check. -/
def acceptedEdges (g : KnowledgeGraph) (opts : TraversalOptions)
    (visited : List String) (id : String) : List Edge :=
  (edgesFrom g id).filter fun e =>
    decide (opts.edgeTypes = [] ∨ e.type ∈ opts.edgeTypes) &&
    decide (¬ e.weight < opts.minWeight) &&
    decide (e.toId ∉ visited)

theorem accepted_targets_sub (g : KnowledgeGraph) (opts : TraversalOptions)
    (visited : List String) (id : String) :
    ∀ x ∈ (acceptedEdges g opts visited id).map (·.toId), x ∈ allTargets g := by
  intro x hx
  rcases List.mem_map.mp hx with ⟨e, he, rfl⟩
  have h1 : e ∈ edgesFrom g id := List.mem_of_mem_filter he
  have h2 : e ∈ g.edges := List.mem_of_mem_filter h1
  exact List.mem_map.mpr ⟨e, h2, rfl⟩

theorem traverseMeasure_lt (allT visited : List String) (cur : String)
    (restIds qIds : List String)
    (hsub : ∀ x ∈ qIds, x ∈ allT ∨ x ∈ restIds) (hcur : cur ∉ visited) :
    ((allT ++ qIds).toFinset \ (cur :: visited).toFinset).card <
      ((allT ++ (cur :: restIds)).toFinset \ visited.toFinset).card := by
  apply Finset.card_lt_card
  have hss : (allT ++ qIds).toFinset \ (cur :: visited).toFinset ⊆
      (allT ++ (cur :: restIds)).toFinset \ visited.toFinset := by
    intro x hx
    simp only [Finset.mem_sdiff, List.mem_toFinset, List.mem_append,
      List.mem_cons] at hx ⊢
    obtain ⟨hmem, hnv⟩ := hx
    refine ⟨?_, fun hc => hnv (Or.inr hc)⟩
    rcases hmem with h | h
    · exact Or.inl h
    · rcases hsub x h with h2 | h2
      · exact Or.inl h2
      · exact Or.inr (Or.inr h2)
  rw [Finset.ssubset_iff_of_subset hss]
  refine ⟨cur, ?_, ?_⟩
  · simp [hcur]
  · simp

theorem traverseMeasure_le (allT visited : List String) (cur : String)
    (restIds : List String) :
    ((allT ++ restIds).toFinset \ visited.toFinset).card ≤
      ((allT ++ (cur :: restIds)).toFinset \ visited.toFinset).card := by
  apply Finset.card_le_card
  intro x hx
  simp only [Finset.mem_sdiff, List.mem_toFinset, List.mem_append,
    List.mem_cons] at hx ⊢
  obtain ⟨hmem, hnv⟩ := hx
  refine ⟨?_, hnv⟩
  rcases hmem with h | h
  · exact Or.inl h
  · exact Or.inr (Or.inr h)

set_option maxHeartbeats 2000000 in
/-- The BFS loop of `Traverse` (memory/graph.go lines 51-100).  Each
iteration pops the front item; an already-visited node is skipped; a
freshly visited node is looked up (a node excluded by the node-type filter
is dropped without expansion; a node id absent from the node map is not
added but still expands); expansion is suppressed once the item's depth has
reached `opts.depth`; accepted edges enqueue their targets at the back with
the extended path and are recorded as traversed. -/
def traverseLoop (g : KnowledgeGraph) (opts : TraversalOptions)
    (visited : List String) (resultNodes : List Node) (resultEdges : List Edge)
    (paths : List (String × List String)) (queue : List QueueItem) :
    TraversalResult :=
  match queue with
  | [] => ⟨resultNodes, resultEdges, paths⟩
  | current :: rest =>
    if ¬ ((resultNodes.length : Int) < opts.maxNodes) then
      ⟨resultNodes, resultEdges, paths⟩
    else if hvis : current.nodeID ∈ visited then
      traverseLoop g opts visited resultNodes resultEdges paths rest
    else
      match nodeById g current.nodeID with
      | some node =>
        if opts.nodeTypes ≠ [] ∧ node.type ∉ opts.nodeTypes then
          traverseLoop g opts (current.nodeID :: visited) resultNodes
            resultEdges paths rest
        else
          if current.depth ≥ opts.depth then
            traverseLoop g opts (current.nodeID :: visited)
              (resultNodes ++ [node]) resultEdges
              (assocSet current.nodeID current.path paths) rest
          else
            traverseLoop g opts (current.nodeID :: visited)
              (resultNodes ++ [node])
              (resultEdges ++
                acceptedEdges g opts (current.nodeID :: visited) current.nodeID)
              (assocSet current.nodeID current.path paths)
              (rest ++ (acceptedEdges g opts (current.nodeID :: visited)
                  current.nodeID).map fun e =>
                ⟨e.toId, current.path ++ [e.toId], current.depth + 1⟩)
      | none =>
        if current.depth ≥ opts.depth then
          traverseLoop g opts (current.nodeID :: visited) resultNodes
            resultEdges paths rest
        else
          traverseLoop g opts (current.nodeID :: visited) resultNodes
            (resultEdges ++
              acceptedEdges g opts (current.nodeID :: visited) current.nodeID)
            paths
            (rest ++ (acceptedEdges g opts (current.nodeID :: visited)
                current.nodeID).map fun e =>
              ⟨e.toId, current.path ++ [e.toId], current.depth + 1⟩)
termination_by
  (((allTargets g ++ queue.map (·.nodeID)).toFinset \ visited.toFinset).card,
   queue.length)
decreasing_by
  · rw [Prod.lex_iff]
    rcases lt_or_eq_of_le (traverseMeasure_le (allTargets g) visited
        current.nodeID (rest.map (·.nodeID))) with h | h
    · exact Or.inl (by simpa using h)
    · exact Or.inr ⟨by simpa using h, by simp⟩
  · rw [Prod.lex_iff]
    refine Or.inl ?_
    simp only [List.map_cons]
    exact traverseMeasure_lt (allTargets g) visited current.nodeID
      (rest.map (·.nodeID)) (rest.map (·.nodeID)) (fun x hx => Or.inr hx) hvis
  · rw [Prod.lex_iff]
    refine Or.inl ?_
    simp only [List.map_cons]
    exact traverseMeasure_lt (allTargets g) visited current.nodeID
      (rest.map (·.nodeID)) (rest.map (·.nodeID)) (fun x hx => Or.inr hx) hvis
  · rw [Prod.lex_iff]
    refine Or.inl ?_
    simp only [List.map_cons, List.map_append, List.map_map]
    refine traverseMeasure_lt (allTargets g) visited current.nodeID
      (rest.map (·.nodeID)) _ ?_ hvis
    intro x hx
    rcases List.mem_append.mp hx with h | h
    · exact Or.inr h
    · refine Or.inl (accepted_targets_sub g opts (current.nodeID :: visited)
        current.nodeID x ?_)
      simpa [Function.comp] using h
  · rw [Prod.lex_iff]
    refine Or.inl ?_
    simp only [List.map_cons]
    exact traverseMeasure_lt (allTargets g) visited current.nodeID
      (rest.map (·.nodeID)) (rest.map (·.nodeID)) (fun x hx => Or.inr hx) hvis
  · rw [Prod.lex_iff]
    refine Or.inl ?_
    simp only [List.map_cons, List.map_append, List.map_map]
    refine traverseMeasure_lt (allTargets g) visited current.nodeID
      (rest.map (·.nodeID)) _ ?_ hvis
    intro x hx
    rcases List.mem_append.mp hx with h | h
    · exact Or.inr h
    · refine Or.inl (accepted_targets_sub g opts (current.nodeID :: visited)
        current.nodeID x ?_)
      simpa [Function.comp] using h

/-- `KnowledgeGraph.Traverse` (memory/graph.go lines 28-107): seed the queue
with the start identifiers that exist in the node map, run the BFS loop, and
return the result with a nil error (the in-memory implementation never
fails). -/
def Traverse (g : KnowledgeGraph) (startNodes : List String)
    (opts : TraversalOptions) : TraversalResult × Option Err :=
  let queue := startNodes.filterMap fun id =>
    if (nodeById g id).isSome then some (⟨id, [id], 0⟩ : QueueItem) else none
  (traverseLoop g opts [] [] [] [] queue, none)

/-- Invariant of a queue entry: a nonempty path starting at a start node,
whose length is the entry's depth plus one, with the depth between 0 and
`max d 0`. -/
def GoodItem (s : List String) (d : Int) (it : QueueItem) : Prop :=
  it.path ≠ [] ∧ (∃ st ∈ s, it.path.head? = some st) ∧
  (it.path.length : Int) = it.depth + 1 ∧ 0 ≤ it.depth ∧ it.depth ≤ max d 0

/-- Invariant of a recorded path: nonempty, starting at a start node, of at
most `max d 0` hops (`max d 0 + 1` node identifiers). -/
def GoodPath (s : List String) (d : Int) (pr : String × List String) : Prop :=
  pr.2 ≠ [] ∧ (∃ st ∈ s, pr.2.head? = some st) ∧
  (pr.2.length : Int) ≤ max d 0 + 1

theorem head?_append_left {l : List String} (t : List String) (h : l ≠ []) :
    (l ++ t).head? = l.head? := by
  cases l with
  | nil => exact absurd rfl h
  | cons a l' => simp

theorem GoodItem.toPath {s : List String} {d : Int} {it : QueueItem}
    (h : GoodItem s d it) : GoodPath s d (it.nodeID, it.path) := by
  obtain ⟨h1, h2, h3, h4, h5⟩ := h
  refine ⟨h1, h2, ?_⟩
  show (it.path.length : Int) ≤ max d 0 + 1
  omega

theorem GoodItem.expand {s : List String} {d : Int} {it : QueueItem}
    (h : GoodItem s d it) (hdep : it.depth < d) (t : String) :
    GoodItem s d ⟨t, it.path ++ [t], it.depth + 1⟩ := by
  obtain ⟨h1, ⟨st, hst, hh⟩, h3, h4, h5⟩ := h
  refine ⟨by simp, ⟨st, hst, ?_⟩, ?_, ?_, ?_⟩
  · show (it.path ++ [t]).head? = some st
    rw [head?_append_left _ h1]
    exact hh
  · show ((it.path ++ [t]).length : Int) = it.depth + 1 + 1
    simp only [List.length_append, List.length_singleton]
    push_cast
    omega
  · show (0 : Int) ≤ it.depth + 1
    omega
  · show it.depth + 1 ≤ max d 0
    omega

theorem traverseLoop_paths (g : KnowledgeGraph) (opts : TraversalOptions)
    (s : List String) (visited : List String) (resultNodes : List Node)
    (resultEdges : List Edge) (paths : List (String × List String))
    (queue : List QueueItem) :
    (∀ it ∈ queue, GoodItem s opts.depth it) →
    (∀ pr ∈ paths, GoodPath s opts.depth pr) →
    ∀ pr ∈ (traverseLoop g opts visited resultNodes resultEdges paths queue).paths,
      GoodPath s opts.depth pr := by
  induction visited, resultNodes, resultEdges, paths, queue
    using traverseLoop.induct g opts with
  | case1 visited rN rE paths =>
    intro _ hp
    simpa [traverseLoop] using hp
  | case2 visited rN rE paths current rest hstop =>
    intro _ hp
    rw [traverseLoop, if_pos hstop]
    exact hp
  | case3 visited rN rE paths current rest hstop hvis ih =>
    intro hq hp
    rw [traverseLoop, if_neg hstop, dif_pos hvis]
    exact ih (fun it hit => hq it (List.mem_cons_of_mem _ hit)) hp
  | case4 visited rN rE paths current rest hstop hvis node hnode hfilt ih =>
    intro hq hp
    rw [traverseLoop, if_neg hstop, dif_neg hvis]
    simp only [hnode]
    rw [if_pos hfilt]
    exact ih (fun it hit => hq it (List.mem_cons_of_mem _ hit)) hp
  | case5 visited rN rE paths current rest hstop hvis node hnode hfilt hdep ih =>
    intro hq hp
    rw [traverseLoop, if_neg hstop, dif_neg hvis]
    simp only [hnode]
    rw [if_neg hfilt, if_pos hdep]
    apply ih (fun it hit => hq it (List.mem_cons_of_mem _ hit))
    intro pr hpr
    rcases mem_assocSet hpr with h1 | h1
    · exact hp pr h1
    · rw [h1]
      exact (hq current (List.mem_cons_self _ _)).toPath
  | case6 visited rN rE paths current rest hstop hvis node hnode hfilt hdep ih =>
    intro hq hp
    rw [traverseLoop, if_neg hstop, dif_neg hvis]
    simp only [hnode]
    rw [if_neg hfilt, if_neg hdep]
    apply ih
    · intro it hit
      rcases List.mem_append.mp hit with h1 | h1
      · exact hq it (List.mem_cons_of_mem _ h1)
      · rcases List.mem_map.mp h1 with ⟨e, -, rfl⟩
        exact (hq current (List.mem_cons_self _ _)).expand (by omega) e.toId
    · intro pr hpr
      rcases mem_assocSet hpr with h1 | h1
      · exact hp pr h1
      · rw [h1]
        exact (hq current (List.mem_cons_self _ _)).toPath
  | case7 visited rN rE paths current rest hstop hvis hnode hdep ih =>
    intro hq hp
    rw [traverseLoop, if_neg hstop, dif_neg hvis]
    simp only [hnode]
    rw [if_pos hdep]
    exact ih (fun it hit => hq it (List.mem_cons_of_mem _ hit)) hp
  | case8 visited rN rE paths current rest hstop hvis hnode hdep ih =>
    intro hq hp
    rw [traverseLoop, if_neg hstop, dif_neg hvis]
    simp only [hnode]
    rw [if_neg hdep]
    apply ih
    · intro it hit
      rcases List.mem_append.mp hit with h1 | h1
      · exact hq it (List.mem_cons_of_mem _ h1)
      · rcases List.mem_map.mp h1 with ⟨e, -, rfl⟩
        exact (hq current (List.mem_cons_self _ _)).expand (by omega) e.toId
    · exact hp

theorem traverse_paths_good (g : KnowledgeGraph) (startNodes : List String)
    (opts : TraversalOptions) :
    ∀ pr ∈ (Traverse g startNodes opts).1.paths,
      GoodPath startNodes opts.depth pr := by
  apply traverseLoop_paths
  · intro it hit
    rcases List.mem_filterMap.mp hit with ⟨id, hid, hsome⟩
    split at hsome
    · cases Option.some.inj hsome
      refine ⟨by simp, ⟨id, hid, by simp⟩, by simp, le_refl 0, le_max_right _ _⟩
    · simp at hsome
  · simp

/-- C3 (amended): depth bound invariant.  For every graph, start set and
options with `Depth = d`, every recorded path in the TraversalResult is
nonempty, starts at some start node, and crosses at most `max d 0` hops
(at most `max d 0 + 1` node identifiers): a negative `d` behaves like 0
because start nodes are recorded before the depth check. -/
theorem traverse_depth_bound (g : KnowledgeGraph) (startNodes : List String)
    (opts : TraversalOptions) :
    ∀ pr ∈ (Traverse g startNodes opts).1.paths,
      pr.2 ≠ [] ∧ (∃ st ∈ startNodes, pr.2.head? = some st) ∧
      (pr.2.length : Int) - 1 ≤ max opts.depth 0 := by
  intro pr hpr
  obtain ⟨h1, h2, h3⟩ := traverse_paths_good g startNodes opts pr hpr
  exact ⟨h1, h2, by omega⟩

/-- One-node graph used by the C3 counterexample and the traversal
witness. -/
def cexGraph : KnowledgeGraph :=
  { name := "kg", nodes := [⟨"a", "t", "c", "s", []⟩], edges := [] }

/-- Options with a negative depth, as an arbitrary Go `int` permits. -/
def cexOpts : TraversalOptions :=
  { depth := -1, edgeTypes := [], nodeTypes := [], maxNodes := 1, minWeight := 0 }

/-- C3 counterexample: with `Depth = -1` the start node is still recorded
with a 1-identifier path (0 hops), but the claim demands at most `-1`
hops. -/
theorem traverse_depth_bound_cex :
    (Traverse cexGraph ["a"] cexOpts).1.paths = [("a", ["a"])] ∧
    ¬ (((["a"] : List String).length : Int) - 1 ≤ cexOpts.depth) := by
  constructor
  · simp [Traverse, traverseLoop, cexGraph, cexOpts, nodeById, assocSet]
  · simp [cexOpts]

/-- Witness for C3 (amended) at a concrete traversal. -/
theorem traverse_depth_bound_witness :
    ("a", ["a"]) ∈ (Traverse cexGraph ["a"] cexOpts).1.paths ∧
    ((("a", ["a"]) : String × List String).2 ≠ [] ∧
      (∃ st ∈ ["a"], (("a", ["a"]) : String × List String).2.head? = some st) ∧
      (((("a", ["a"]) : String × List String).2.length : Int) - 1 ≤
        max cexOpts.depth 0)) :=
  ⟨by simp [Traverse, traverseLoop, cexGraph, cexOpts, nodeById, assocSet],
    traverse_depth_bound cexGraph ["a"] cexOpts ("a", ["a"])
      (by simp [Traverse, traverseLoop, cexGraph, cexOpts, nodeById, assocSet])⟩

/-! ## Graph retriever (`graph` package, src/unnamed/part_005 lines 140-269) -/

/-- `matchesFilters` (metadata must match every filter; a missing key reads
as the zero value `""`). -/
def matchesFilters (metadata filters : List (String × String)) : Bool :=
  filters.all fun kv => decide ((assocFind kv.1 metadata).getD "" = kv.2)

/-- `KnowledgeGraph.FindNodes` (memory/graph.go lines 110-130); the
in-memory implementation never fails, and the node-map iteration order is
modelled by the node list's order. -/
def FindNodes (g : KnowledgeGraph) (nodeType : String)
    (filters : List (String × String)) : List Node :=
  g.nodes.filter fun n =>
    decide (nodeType = "" ∨ n.type = nodeType) && matchesFilters n.metadata filters

/-- `graph.RetrieverConfig` (part_005 lines 140-152), bound to the
in-memory knowledge graph; the observer side channel is not modelled. -/
structure GraphRetrieverConfig where
  graph : KnowledgeGraph
  defaultDepth : Int
  defaultMaxNodes : Int
  edgeTypes : List String

/-- `graph.Retriever.Retrieve` (part_005 lines 171-269). -/
def graphRetrieve (cfg : GraphRetrieverConfig) (q : Query) :
    Option Result × Option Err :=
  let startNodes1 := (q.entities.filter fun e => decide (e.id ≠ "")).map (·.id)
  let startNodes :=
    if startNodes1.length = 0 then (FindNodes cfg.graph "" q.filters).map (·.id)
    else startNodes1
  if startNodes.length = 0 then
    (some { items := [], query := q,
            metadata := { totalCandidates := 0, latencyMS := 0,
                          modesUsed := [ModeGraph], cacheHit := false } }, none)
  else
    let depth := if q.maxDepth = 0 then cfg.defaultDepth else q.maxDepth
    let maxNodes := if q.topK = 0 then cfg.defaultMaxNodes else q.topK
    let opts : TraversalOptions :=
      { depth := depth, edgeTypes := cfg.edgeTypes, nodeTypes := [],
        maxNodes := maxNodes, minWeight := q.minScore }
    let result := (Traverse cfg.graph startNodes opts).1
    let items := result.nodes.foldl (fun acc node =>
      let path := (assocFind node.id result.paths).getD []
      let score := computePathScore path result.edges
      if score < q.minScore ∧ q.minScore > 0 then acc
      else acc ++ [{ id := node.id, content := node.content,
                     source := node.source, score := score,
                     metadata := node.metadata,
                     provenance := { mode := ModeGraph, backend := cfg.graph.name,
                                     graphPath := path, similarityScore := 0,
                                     rerankerScore := 0 } }]) []
    (some { items := items, query := q,
            metadata := { totalCandidates := (result.nodes.length : Int),
                          latencyMS := 0, modesUsed := [ModeGraph],
                          cacheHit := false } }, none)

/-- C8: an empty (or all-missing) start set is not an error.  `Traverse`
returns an empty TraversalResult with a nil error whenever no start
identifier exists in the node map, and the graph Retriever, when it ends up
with no start nodes (no usable entity hints and no `FindNodes` matches),
returns a well-formed Result with an empty item list and a nil error. -/
theorem empty_start_not_error :
    (∀ (g : KnowledgeGraph) (startNodes : List String) (opts : TraversalOptions),
      (∀ s ∈ startNodes, nodeById g s = none) →
      Traverse g startNodes opts = (⟨[], [], []⟩, none)) ∧
    (∀ (cfg : GraphRetrieverConfig) (q : Query),
      (∀ e ∈ q.entities, e.id = "") →
      FindNodes cfg.graph "" q.filters = [] →
      graphRetrieve cfg q =
        (some { items := [], query := q,
                metadata := { totalCandidates := 0, latencyMS := 0,
                              modesUsed := [ModeGraph], cacheHit := false } },
         none)) := by
  constructor
  · intro g startNodes opts hmiss
    have hqueue : (startNodes.filterMap fun id =>
        if (nodeById g id).isSome then some (⟨id, [id], 0⟩ : QueueItem)
        else none) = [] := by
      rw [List.filterMap_eq_nil]
      intro id hid
      simp [hmiss id hid]
    rw [Traverse]
    simp only [hqueue]
    rw [traverseLoop]
  · intro cfg q hent hfind
    have h1 : (q.entities.filter fun e => decide (e.id ≠ "")) = [] := by
      rw [List.filter_eq_nil]
      intro e he
      simp [hent e he]
    simp only [graphRetrieve, h1]
    simp [hfind]

/-- Empty graph used by the C8 witness. -/
def witEmptyGraph : KnowledgeGraph := { name := "kg", nodes := [], edges := [] }

/-- Graph retriever configuration used by the C8 witness. -/
def witGraphConfig : GraphRetrieverConfig :=
  { graph := witEmptyGraph, defaultDepth := 2, defaultMaxNodes := 20,
    edgeTypes := [] }

/-- Query with one blank entity hint, used by the C8 witness. -/
def witGraphQuery : Query :=
  { text := "t", embedding := [], entities := [⟨"", "", "", 0⟩], filters := [],
    maxDepth := 0, topK := 0, modes := [], minScore := 0, metadata := [] }

/-- Witness for C8 at a concrete graph, start set and query. -/
theorem empty_start_not_error_witness :
    ((∀ s ∈ ["z"], nodeById witEmptyGraph s = none) ∧
      Traverse witEmptyGraph ["z"] cexOpts = (⟨[], [], []⟩, none)) ∧
    ((∀ e ∈ witGraphQuery.entities, e.id = "") ∧
      FindNodes witGraphConfig.graph "" witGraphQuery.filters = [] ∧
      graphRetrieve witGraphConfig witGraphQuery =
        (some { items := [], query := witGraphQuery,
                metadata := { totalCandidates := 0, latencyMS := 0,
                              modesUsed := [ModeGraph], cacheHit := false } },
         none)) :=
  ⟨⟨by simp [nodeById, witEmptyGraph],
    empty_start_not_error.1 witEmptyGraph ["z"] cexOpts
      (by simp [nodeById, witEmptyGraph])⟩,
   ⟨by simp [witGraphQuery], by simp [FindNodes, witGraphConfig, witEmptyGraph],
    empty_start_not_error.2 witGraphConfig witGraphQuery
      (by simp [witGraphQuery])
      (by simp [FindNodes, witGraphConfig, witEmptyGraph])⟩⟩

end OmniRetrieve
